import Mathlib

/-!
# Burrow cleanup engine: a shallow embedding

This file embeds the core of the `burrow` cleanup tool in Lean 4:

* the safety validator (`safety.IsSafe`, `safety.isGitRepo`, `safety.ExpandPath`),
* the scanner (`scanner.Scan` in rule-based and large-file mode, `dirSize`),
* the trash/undo subsystem (`cleaner.MoveToTrash`, `cleaner.RestoreLast`),
* the cleanup orchestrator (`cleaner.Clean`).

Filesystem paths are represented as lists of components below the root
(`/a/b` is `["a", "b"]`); where the Go source manipulates path strings
(`strings.HasPrefix` checks, `ExpandPath`) the embedding keeps strings and
converts with `pathComps`/`compsToString`.  The filesystem itself is a
finite association of file paths to contents and of directory paths to
metadata; the primitive operations (`rename`, `mkdirAll`, `writeFile`,
`readDir`, `removeAll`) follow the POSIX semantics the Go standard library
relies on.  The model has no permission errors and no I/O faults, so a
primitive fails only for the structural reasons (missing source, occupied
destination, moving a directory into its own subtree, and so on).
-/

namespace Burrow

/-- A filesystem path, as the list of components below the root:
`/a/b` is `["a", "b"]`, the root `/` is `[]`. -/
abbrev FPath := List String

/-- `TrashEntry` maps a trashed file to its original location
(struct `TrashEntry` in `internal/cleaner/trash.go`). -/
structure TrashEntry where
  originalPath : FPath
  trashPath : FPath
deriving DecidableEq, Repr

/-- `TrashManifest` stores information about trashed files for undo operations
(struct `TrashManifest` in `internal/cleaner/trash.go`).  The timestamp is the
`time.Now()` value recorded at session creation, modelled as an integer. -/
structure TrashManifest where
  timestamp : Int
  entries : List TrashEntry
deriving DecidableEq, Repr

/-- File contents.  JSON serialization of a manifest is embedded as the
distinguished constructor `manifestData`: `json.Marshal` produces it and
`json.Unmarshal` succeeds exactly on it (the Go pair round-trips). -/
inductive Content where
  | bytes (data : List Nat) : Content
  | manifestData (m : TrashManifest) : Content
deriving DecidableEq, Repr

/-- The size in bytes reported by `os.Stat` for a file.  For raw contents it
is the byte count; for a stored manifest the encoded length is irrelevant to
every property proved here and is represented by the entry count. -/
def Content.size : Content → Int
  | .bytes data => (data.length : Int)
  | .manifestData m => (m.entries.length : Int)

/-- A regular file: its absolute path, contents and modification time. -/
structure FileEnt where
  path : FPath
  content : Content
  mtime : Int
deriving DecidableEq, Repr

/-- A directory: its absolute path and modification time. -/
structure DirEnt where
  path : FPath
  mtime : Int
deriving DecidableEq, Repr

/-- A filesystem: finitely many regular files and directories.
The root `[]` always exists implicitly. -/
structure Fs where
  files : List FileEnt
  dirs : List DirEnt
deriving DecidableEq, Repr

/-- The contents of the regular file at `p`, if any. -/
def Fs.lookupFile (fs : Fs) (p : FPath) : Option Content :=
  (fs.files.find? (fun e => e.path = p)).map (·.content)

/-- Is there a regular file at `p`? -/
def Fs.isFile (fs : Fs) (p : FPath) : Bool :=
  fs.files.any (fun e => e.path = p)

/-- Is there a directory at `p` (other than the implicit root)? -/
def Fs.isDir (fs : Fs) (p : FPath) : Bool :=
  fs.dirs.any (fun d => d.path = p)

/-- `os.Stat` succeeds: something exists at `p`. -/
def Fs.statOk (fs : Fs) (p : FPath) : Bool :=
  fs.isFile p || fs.isDir p

/-- The directory `p` exists (the root always does). -/
def Fs.dirExists (fs : Fs) (p : FPath) : Bool :=
  p.isEmpty || fs.isDir p

/-- The modification time `os.Stat` reports for `p`, when `p` exists. -/
def Fs.statMtime (fs : Fs) (p : FPath) : Option Int :=
  match fs.files.find? (fun e => e.path = p) with
  | some e => some e.mtime
  | none => (fs.dirs.find? (fun d => d.path = p)).map (·.mtime)

/-- Does anything lie strictly below `p`? -/
def Fs.hasChild (fs : Fs) (p : FPath) : Bool :=
  fs.files.any (fun e => p.isPrefixOf e.path && e.path ≠ p) ||
  fs.dirs.any (fun d => p.isPrefixOf d.path && d.path ≠ p)

/-- Transport a path below `src` to the corresponding path below `dst`. -/
def reroot (src dst p : FPath) : FPath := dst ++ p.drop src.length

/-- `os.Rename src dst` with POSIX semantics: the source must exist, a
directory cannot be moved into its own subtree, a file cannot replace a
directory and vice versa, a directory can only replace an empty directory,
and the destination's parent directory must exist.  On success the whole
subtree rooted at `src` moves below `dst`, silently replacing a regular
file (or empty directory) previously at `dst`. -/
def Fs.rename (fs : Fs) (src dst : FPath) : Except String Fs :=
  if src = dst then .ok fs
  else if ¬ fs.statOk src then .error "no such file or directory"
  else if src.isPrefixOf dst then .error "invalid argument"
  else if fs.isFile src && fs.isDir dst then .error "is a directory"
  else if fs.isDir src && fs.isFile dst then .error "not a directory"
  else if fs.isDir src && fs.isDir dst && fs.hasChild dst then
    .error "directory not empty"
  else if ¬ fs.dirExists dst.dropLast then .error "no such file or directory"
  else .ok
    { files := (fs.files.filter (fun e => e.path ≠ dst)).map
        (fun e => if src.isPrefixOf e.path then
          ⟨reroot src dst e.path, e.content, e.mtime⟩ else e)
      dirs := (fs.dirs.filter (fun d => d.path ≠ dst)).map
        (fun d => if src.isPrefixOf d.path then
          ⟨reroot src dst d.path, d.mtime⟩ else d) }

/-- All initial segments of a path, from `[]` up to the path itself. -/
def initialSegs (p : FPath) : List FPath :=
  (List.range (p.length + 1)).map (fun n => p.take n)

/-- `os.MkdirAll p`: create every missing directory along `p`.  Fails iff a
regular file occupies one of the initial segments of `p`. -/
def Fs.mkdirAll (fs : Fs) (p : FPath) (mtime : Int) : Except String Fs :=
  if (initialSegs p).any (fun q => fs.isFile q) then .error "not a directory"
  else
    let fresh := (initialSegs p).filter (fun q => ¬ q.isEmpty ∧ ¬ fs.isDir q)
    .ok { fs with dirs := fs.dirs ++ fresh.map (fun q => ⟨q, mtime⟩) }

/-- `os.WriteFile p c`: create or truncate the regular file at `p`.  Fails
iff `p` is a directory or its parent directory does not exist. -/
def Fs.writeFile (fs : Fs) (p : FPath) (c : Content) (mtime : Int) :
    Except String Fs :=
  if fs.isDir p then .error "is a directory"
  else if ¬ fs.dirExists p.dropLast then .error "no such file or directory"
  else .ok { fs with
    files := (fs.files.filter (fun e => e.path ≠ p)) ++ [⟨p, c, mtime⟩] }

/-- `os.ReadFile p`. -/
def Fs.readFile (fs : Fs) (p : FPath) : Except String Content :=
  match fs.lookupFile p with
  | some c => .ok c
  | none => .error "no such file or directory"

/-- One entry returned by `os.ReadDir`. -/
structure DirEntry where
  name : String
  isDir : Bool
deriving DecidableEq, Repr

/-- `os.ReadDir p`: the immediate children of directory `p`. -/
def Fs.readDir (fs : Fs) (p : FPath) : Except String (List DirEntry) :=
  if ¬ fs.dirExists p then .error "no such file or directory"
  else .ok
    ((fs.dirs.filterMap (fun d =>
        if d.path.length = p.length + 1 && p.isPrefixOf d.path then
          (d.path.getLast?).map (fun n => DirEntry.mk n true)
        else none)) ++
     (fs.files.filterMap (fun e =>
        if e.path.length = p.length + 1 && p.isPrefixOf e.path then
          (e.path.getLast?).map (fun n => DirEntry.mk n false)
        else none)))

/-- `os.RemoveAll p`: delete everything at or below `p`.  In a model with no
permission faults this cannot fail, matching `os.RemoveAll`'s contract of
returning `nil` even when `p` does not exist. -/
def Fs.removeAll (fs : Fs) (p : FPath) : Fs :=
  { files := fs.files.filter (fun e => ¬ p.isPrefixOf e.path)
    dirs := fs.dirs.filter (fun d => ¬ p.isPrefixOf d.path) }

/-! ## String paths

The Go source handles paths as strings.  `pathComps` and `compsToString`
convert between a clean absolute path string and its component list; for
such strings they are mutually inverse and agree with `filepath.Base`,
`filepath.Dir` and `filepath.Join` componentwise. -/

/-- Split a character list at `/` boundaries (the computation of
`strings.Split s "/"`, on the model's character lists). -/
def splitSlashGo (cur : List Char) : List Char → List String
  | [] => [String.mk cur.reverse]
  | c :: rest =>
    if c = '/' then String.mk cur.reverse :: splitSlashGo [] rest
    else splitSlashGo (c :: cur) rest

/-- Components of a path string: `"/a/b"` becomes `["a", "b"]`. -/
def pathComps (s : String) : List String :=
  (splitSlashGo [] s.data).filter (fun c => c ≠ "")

/-- Join component strings with `/` separators. -/
def joinComps : List String → String
  | [] => ""
  | [a] => a
  | a :: b :: rest => a ++ "/" ++ joinComps (b :: rest)

/-- Path string of a component list: `["a", "b"]` becomes `"/a/b"`,
`[]` becomes `"/"`. -/
def compsToString (p : FPath) : String :=
  "/" ++ joinComps p

/-- `filepath.Base` for a clean absolute path string
(`Base "/a/b" = "b"`, `Base "/" = "/"`). -/
def baseName (s : String) : String :=
  (pathComps s).getLastD "/"

/-- `filepath.Base` on a component path: the last component, `"/"` for the
root. -/
def fpBase (p : FPath) : String := p.getLastD "/"

/-! ## Safety validator (`internal/safety`) -/

/-- `strings.HasPrefix`, as prefix of the character lists (Go compares the
byte sequences; on the model's strings the two coincide). -/
def hasPre (pre s : String) : Bool := pre.data.isPrefixOf s.data

/-- `safety.ExpandPath`: replace a leading `~/` with the user's home
directory (for a path that is exactly `"~/"` the Go `filepath.Join` of
`home` and `""` is `home`; the scanner never passes that form). -/
def ExpandPath (home : String) (path : String) : String :=
  if hasPre "~/" path then home ++ "/" ++ (path.drop 2) else path

/-- The fixed SIP-protected path list of `safety.IsSafe`. -/
def systemPaths : List String :=
  ["/System", "/Library/Apple", "/usr/bin", "/usr/sbin", "/bin", "/sbin"]

/-- The fixed user document directory list of `safety.IsSafe`
(`filepath.Join home d` is `home ++ "/" ++ d` for a clean `home`). -/
def userDocPaths (home : String) : List String :=
  [home ++ "/Documents", home ++ "/Desktop", home ++ "/Downloads"]

/-- The descent of `safety.isGitRepo`: `filepath.Walk` over the subtree at
`path`, looking for a directory whose name is `.git` (entries that the walk
cannot read are skipped; the walk of a missing or non-directory path visits
no directory below it). -/
def gitWalkFound (fs : Fs) (path : String) : Bool :=
  fs.dirs.any (fun d =>
    (pathComps path).isPrefixOf d.path && d.path.getLastD "" = ".git")

/-- The loop body of the ascent of `safety.isGitRepo`, with explicit fuel
(structural recursion; the caller supplies fuel equal to the path depth,
which the loop can never exhaust). -/
def gitAscentGo (fs : Fs) (fuel : Nat) (cs : List String) : Bool :=
  match fuel with
  | 0 => fs.statOk (cs ++ [".git"])
  | fuel + 1 =>
    if cs.length ≤ 1 then fs.statOk (cs ++ [".git"])
    else fs.statOk (cs ++ [".git"]) || gitAscentGo fs fuel cs.dropLast

/-- The ascent of `safety.isGitRepo`, on the component list of the path:
`os.Stat (curr ++ "/.git")` at every level from the path up, stopping when
the parent would be the filesystem root (so the root's own `.git` is only
consulted when the walk starts at the root itself). -/
def gitAscent (fs : Fs) (cs : List String) : Bool :=
  gitAscentGo fs cs.length cs

/-- `safety.isGitRepo`: the path's own basename is `.git`, or the descent
below the path finds a `.git` directory, or the ascent toward the root finds
one. -/
def isGitRepo (fs : Fs) (path : String) : Bool :=
  if baseName path = ".git" then true
  else if gitWalkFound fs path then true
  else gitAscent fs (pathComps path)

/-- `safety.IsSafe`, after the `filepath.Abs (ExpandPath path)`
normalization of its argument: `filepath.Abs` is the identity on clean
absolute path strings and the callers pass expanded absolute paths.  The
argument `absPath` is the normalized path; `home` is `os.UserHomeDir`. -/
def IsSafe (fs : Fs) (home : String) (absPath : String) : Bool × String :=
  if absPath = home || absPath = "/" then
    (false, "Cannot delete home or root directory")
  else if systemPaths.any (fun p => hasPre p absPath) then
    (false, "Path is protected by System Integrity Protection (SIP)")
  else if isGitRepo fs absPath then
    (false, "Path contains Git metadata (.git)")
  else if (userDocPaths home).any (fun p => absPath = p) then
    (false, "Path is a common user document directory")
  else (true, "")

/-! ## Rule catalog (`internal/rules`) -/

/-- `rules.RiskLevel`. -/
inductive RiskLevel where
  | safe | caution | manual
deriving DecidableEq, Repr

/-- `rules.CleanupRule`. -/
structure CleanupRule where
  name : String := ""
  category : String := ""
  paths : List String := []
  riskLevel : RiskLevel := .safe
  description : String := ""
  explanation : String := ""
  ruleVersion : String := ""
  introducedIn : String := ""
deriving DecidableEq, Repr

/-- `rules.Result`: the outcome of a scan for one rule. -/
structure Result where
  rule : CleanupRule
  foundPaths : List String
  totalSize : Int
deriving DecidableEq, Repr

/-! ## Scanner (`internal/scanner`) -/

/-- `scanner.ScanOptions`.  `olderThan` is the `time.Duration` as an
integer, `0` meaning unset. -/
structure ScanOptions where
  category : String := ""
  sizeThreshold : Int := 0
  excludedPaths : List String := []
  olderThan : Int := 0
  largeFileMode : Bool := false
deriving DecidableEq, Repr

/-- `scanner.ScanResults`. -/
structure ScanResults where
  results : List Result
  totalSize : Int
deriving DecidableEq, Repr

/-- `scanner.dirSize`: recursive size of the path, counting only regular
file sizes.  `filepath.Walk` of a missing path reports its error and the
error propagates; in a fault-free filesystem that is the only failure. -/
def dirSize (fs : Fs) (p : FPath) : Except String Int :=
  if ¬ fs.statOk p then .error "no such file or directory"
  else .ok (((fs.files.filter (fun e => p.isPrefixOf e.path)).map
    (fun e => e.content.size)).sum)

/-- Lower-casing of a string, character by character. -/
def lowerStr (s : String) : String := String.mk (s.data.map Char.toLower)

/-- Does `rule` survive the scanner's category filter
(`strings.EqualFold` modelled as lower-case equality)? -/
def categoryOk (opts : ScanOptions) (rule : CleanupRule) : Bool :=
  opts.category = "" || lowerStr rule.category = lowerStr opts.category

/-- One iteration of the path-pattern loop in the rule-based branch of
`scanner.Scan`: expand the pattern, drop it when it falls under an excluded
path, does not exist, is too recent, is denied by the safety validator, or
cannot be sized; apply the per-path size threshold; otherwise yield the
expanded path with its recursive size. -/
def evalRulePath (fs : Fs) (home : String) (opts : ScanOptions) (now : Int)
    (pathPattern : String) : Option (String × Int) :=
  let expanded := ExpandPath home pathPattern
  if opts.excludedPaths.any
      (fun ep => hasPre (ExpandPath home ep) expanded) then none
  else
    match fs.statMtime (pathComps expanded) with
    | none => none
    | some mt =>
      if opts.olderThan > 0 && now - mt < opts.olderThan then none
      else if ¬ (IsSafe fs home expanded).1 then none
      else
        match dirSize fs (pathComps expanded) with
        | .error _ => none
        | .ok size =>
          if opts.sizeThreshold > 0 && size < opts.sizeThreshold then none
          else some (expanded, size)

/-- One rule evaluation of the rule-based branch of `scanner.Scan`: the
rule contributes a `Result` exactly when at least one of its path patterns
survives the filters. -/
def evalRule (fs : Fs) (home : String) (opts : ScanOptions) (now : Int)
    (r : CleanupRule) : Option Result :=
  let matched := r.paths.filterMap (evalRulePath fs home opts now)
  if matched.isEmpty then none
  else some ⟨r, matched.map (·.1), (matched.map (·.2)).sum⟩

/-- The shared result accumulator of `scanner.Scan`: each task appends its
`Result` and adds its size to the running grand total under one lock.  The
model serializes the tasks in catalog order (the aggregate facts proved
about it are order-independent). -/
def scanFold {α : Type} (step : α → Option Result) (items : List α) :
    List Result × Int :=
  items.foldl (fun acc it =>
    match step it with
    | none => acc
    | some res => (acc.1 ++ [res], acc.2 + res.totalSize)) ([], 0)

/-- The fixed directory list of the large-file branch of `scanner.Scan`. -/
def largeFileDirs : List String :=
  ["~/Downloads", "~/Desktop", "~/Documents", "~/Movies", "~/Pictures"]

/-- The effective large-file threshold: the explicit one, or 100 MiB when
the option is zero. -/
def largeThreshold (t : Int) : Int :=
  if t = 0 then 100 * 1024 * 1024 else t

/-- The walk of one directory in the large-file branch: every regular file
strictly larger than the threshold, with its size.  Directories are
skipped by the `info.IsDir()` guard and unreadable entries by the `err`
guard; neither occurs in the model. -/
def walkLargeFiles (fs : Fs) (d : FPath) (threshold : Int) :
    List (String × Int) :=
  (fs.files.filter (fun e => d.isPrefixOf e.path && e.content.size > threshold)).map
    (fun e => (compsToString e.path, e.content.size))

/-- The synthetic rule the large-file branch tags its results with.  The
`fmt.Sprintf` float formatting of the threshold in the description is
abstracted to a decimal rendering. -/
def largeFileRule (threshold : Int) (d : String) : CleanupRule :=
  { name := "Large Files (>100MB)"
    category := "Large Files"
    description := "Files larger than " ++ toString threshold ++ " B in " ++ d
    riskLevel := .manual }

/-- One directory task of the large-file branch of `scanner.Scan`. -/
def evalLargeDir (fs : Fs) (home : String) (threshold : Int) (dir : String) :
    Option Result :=
  let d := ExpandPath home dir
  let found := walkLargeFiles fs (pathComps d) threshold
  if found.isEmpty then none
  else some ⟨largeFileRule threshold d, found.map (·.1), (found.map (·.2)).sum⟩

/-- `scanner.Scan`: the large-file branch walks the five fixed user
directories for oversized files; the rule-based branch evaluates every
rule that passes the category filter.  Both branches join their tasks and
return the accumulated results with the grand total.  `registry` is
`s.registry.All()`, `home` is `os.UserHomeDir`, `now` the current time. -/
def Scan (fs : Fs) (home : String) (registry : List CleanupRule)
    (opts : ScanOptions) (now : Int) : ScanResults :=
  if opts.largeFileMode then
    let threshold := largeThreshold opts.sizeThreshold
    let acc := scanFold (evalLargeDir fs home threshold) largeFileDirs
    ⟨acc.1, acc.2⟩
  else
    let acc := scanFold (evalRule fs home opts now)
      (registry.filter (categoryOk opts))
    ⟨acc.1, acc.2⟩

/-! ## Trash subsystem (`internal/cleaner/trash.go`)

State is passed explicitly: each operation returns its result together
with the filesystem it leaves behind, so a failure that keeps earlier
mutations is visible.  `baseDir` is the `TrashManager.TrashBaseDir` field;
`timestamp` is the `time.Now().Format("20060102_150405")` session name and
`nowT` the numeric `time.Now()` recorded in the manifest. -/

/-- The fixed manifest filename inside a session directory. -/
def manifestName : String := "manifest.json"

/-- The rename loop of `cleaner.MoveToTrash`: move each path to
`sessionDir/<basename>`, accumulating manifest entries; the first rename
error aborts the loop, keeping the filesystem as the earlier moves left
it. -/
def moveLoop (fs : Fs) (sessionDir : FPath) (paths : List FPath)
    (acc : List TrashEntry) : Except String (List TrashEntry) × Fs :=
  match paths with
  | [] => (.ok acc, fs)
  | p :: rest =>
    let trashPath := sessionDir ++ [fpBase p]
    match fs.rename p trashPath with
    | .error e => (.error ("failed to move to trash: " ++ e), fs)
    | .ok fs' => moveLoop fs' sessionDir rest (acc ++ [⟨p, trashPath⟩])

/-- `cleaner.MoveToTrash`: create the timestamped session directory, move
every path into it by rename, then write the manifest.  A rename failure
fails the whole call with no cleanup of the paths already moved. -/
def MoveToTrash (fs : Fs) (baseDir : FPath) (timestamp : String) (nowT : Int)
    (paths : List FPath) : Except String String × Fs :=
  let sessionDir := baseDir ++ [timestamp]
  match fs.mkdirAll sessionDir nowT with
  | .error e => (.error ("failed to create trash directory: " ++ e), fs)
  | .ok fs1 =>
    match moveLoop fs1 sessionDir paths [] with
    | (.error e, fs2) => (.error e, fs2)
    | (.ok entries, fs2) =>
      match fs2.writeFile (sessionDir ++ [manifestName])
          (.manifestData ⟨nowT, entries⟩) nowT with
      | .error e => (.error ("failed to write manifest: " ++ e), fs2)
      | .ok fs3 => (.ok timestamp, fs3)

/-- Lexicographic comparison of character lists (the computation of Go's
`<` on strings, on the model's character lists). -/
def charListLt : List Char → List Char → Bool
  | [], [] => false
  | [], _ :: _ => true
  | _ :: _, [] => false
  | a :: as, b :: bs =>
    if a.toNat < b.toNat then true
    else if b.toNat < a.toNat then false
    else charListLt as bs

/-- Go's `s < t` on strings. -/
def strLt (s t : String) : Bool := charListLt s.data t.data

/-- The session-selection fold of `cleaner.RestoreLast`: the
lexicographically greatest directory-entry name, starting from `""`. -/
def latestSession (entries : List DirEntry) : String :=
  entries.foldl (fun acc ent =>
    if ent.isDir && strLt acc ent.name then ent.name else acc) ""

/-- The restore loop of `cleaner.RestoreLast`: for each manifest entry,
recreate the original parent directory (a failure skips the entry) and
rename the trashed path back (a failure is logged and skipped).  No entry
failure aborts the loop. -/
def restoreLoop (fs : Fs) (entries : List TrashEntry) : Fs :=
  entries.foldl (fun f ent =>
    match f.mkdirAll ent.originalPath.dropLast 0 with
    | .error _ => f
    | .ok f1 =>
      match f1.rename ent.trashPath ent.originalPath with
      | .error _ => f1
      | .ok f2 => f2) fs

/-- `cleaner.RestoreLast`: list the trash root, pick the lexicographically
greatest session directory, read and parse its manifest, replay every
entry best-effort, then remove the session directory unconditionally. -/
def RestoreLast (fs : Fs) (baseDir : FPath) : Except String Unit × Fs :=
  match fs.readDir baseDir with
  | .error e => (.error ("failed to read trash directory: " ++ e), fs)
  | .ok entries =>
    if entries.isEmpty then (.error "no trash sessions found", fs)
    else
      let latest := latestSession entries
      if latest = "" then (.error "no valid trash sessions found", fs)
      else
        let sessionDir := baseDir ++ [latest]
        match fs.readFile (sessionDir ++ [manifestName]) with
        | .error e =>
          (.error ("failed to read manifest for session " ++ latest ++ ": " ++ e), fs)
        | .ok (.bytes _) => (.error "failed to parse manifest", fs)
        | .ok (.manifestData m) =>
          (.ok (), (restoreLoop fs m.entries).removeAll sessionDir)

/-! ## Cleanup orchestrator (`internal/cleaner/cleaner.go`) -/

/-- `cleaner.CleanResult`. -/
structure CleanResult where
  reclaimedSpace : Int
  fileCount : Nat
  trashSession : String
deriving DecidableEq, Repr

/-- `history.Entry`, with the category-stats map as an association list. -/
structure HistoryEntry where
  id : String
  timestamp : Int
  reclaimedBytes : Int
  fileCount : Nat
  categoryStats : List (String × Int)
deriving DecidableEq, Repr

/-- `categoryStats[k] += v` on the association-list representation. -/
def bumpStat (stats : List (String × Int)) (k : String) (v : Int) :
    List (String × Int) :=
  if stats.any (fun kv => kv.1 = k) then
    stats.map (fun kv => if kv.1 = k then (kv.1, kv.2 + v) else kv)
  else stats ++ [(k, v)]

/-- `history.Manager.Save`: load the stored entries newest-first, append
the new entry, keep the last 50 (the sort is the stable canonical choice
for Go's unstable `sort.Slice`). -/
def historySave (stored : List HistoryEntry) (e : HistoryEntry) :
    List HistoryEntry :=
  let entries := (stored.mergeSort (fun a b => decide (b.timestamp ≤ a.timestamp))) ++ [e]
  if entries.length > 50 then entries.drop (entries.length - 50) else entries

/-- The world the orchestrator mutates: the filesystem and the persisted
history list. -/
structure World where
  fs : Fs
  history : List HistoryEntry
deriving DecidableEq, Repr

/-- `cleaner.Clean`: flatten the scan results into one path list and one
total, short-circuit with the `"DRY-RUN"` sentinel in dry-run mode, and
otherwise delegate to `MoveToTrash` and record the session in the
history. -/
def Clean (w : World) (baseDir : FPath) (timestamp : String) (nowT : Int)
    (results : List Result) (dryRun : Bool) :
    Except String CleanResult × World :=
  let totalSpace := (results.map (·.totalSize)).sum
  let totalPaths := results.flatMap (·.foundPaths)
  let categoryStats := results.foldl
    (fun st res => bumpStat st res.rule.category res.totalSize) []
  if dryRun then (.ok ⟨totalSpace, totalPaths.length, "DRY-RUN"⟩, w)
  else
    match MoveToTrash w.fs baseDir timestamp nowT (totalPaths.map pathComps) with
    | (.error e, fs') => (.error e, { w with fs := fs' })
    | (.ok session, fs') =>
      let entry : HistoryEntry :=
        ⟨session, nowT, totalSpace, totalPaths.length, categoryStats⟩
      (.ok ⟨totalSpace, totalPaths.length, session⟩,
       ⟨fs', historySave w.history entry⟩)

/-- `cleaner.Undo`: delegate to `RestoreLast`. -/
def Undo (w : World) (baseDir : FPath) : Except String Unit × World :=
  match RestoreLast w.fs baseDir with
  | (r, fs') => (r, { w with fs := fs' })

/-! ## Specification-side notions

Definitions below are written from the spec's words, to be compared with
the source-side definitions above. -/

/-- One path pattern of a rule "matches": it passes the exclusion,
existence, age and safety filters and can be sized — the spec's notion of
a matched path, before any size threshold is considered.  Identical to the
path loop of `evalRulePath` with the threshold comparison removed. -/
def matchStep (fs : Fs) (home : String) (opts : ScanOptions) (now : Int)
    (pathPattern : String) : Option (String × Int) :=
  let expanded := ExpandPath home pathPattern
  if opts.excludedPaths.any
      (fun ep => hasPre (ExpandPath home ep) expanded) then none
  else
    match fs.statMtime (pathComps expanded) with
    | none => none
    | some mt =>
      if opts.olderThan > 0 && now - mt < opts.olderThan then none
      else if ¬ (IsSafe fs home expanded).1 then none
      else
        match dirSize fs (pathComps expanded) with
        | .error _ => none
        | .ok size => none.getD (some (expanded, size))

/-- A rule's matched paths with their sizes, the spec's "the rule's
matched paths", before any size threshold. -/
def matchedNoThreshold (fs : Fs) (home : String) (opts : ScanOptions)
    (now : Int) (r : CleanupRule) : List (String × Int) :=
  r.paths.filterMap (matchStep fs home opts now)

/-! ## Helper lemmas -/

theorem scanFold_go {α : Type} (step : α → Option Result) (items : List α)
    (accL : List Result) (accT : Int) :
    items.foldl (fun acc it =>
        match step it with
        | none => acc
        | some res => (acc.1 ++ [res], acc.2 + res.totalSize)) (accL, accT)
      = (accL ++ items.filterMap step,
         accT + ((items.filterMap step).map (·.totalSize)).sum) := by
  induction items generalizing accL accT with
  | nil => simp
  | cons x xs ih =>
    simp only [List.foldl_cons, List.filterMap_cons]
    cases hx : step x with
    | none => simpa using ih accL accT
    | some res =>
      rw [ih]
      simp [add_assoc]

theorem scanFold_results {α : Type} (step : α → Option Result)
    (items : List α) : (scanFold step items).1 = items.filterMap step := by
  unfold scanFold
  rw [scanFold_go]
  simp

theorem scanFold_total {α : Type} (step : α → Option Result)
    (items : List α) :
    (scanFold step items).2 =
      ((items.filterMap step).map (·.totalSize)).sum := by
  unfold scanFold
  rw [scanFold_go]
  simp

theorem length_filterMap_eq_countP {α β : Type} (f : α → Option β)
    (l : List α) :
    (l.filterMap f).length = l.countP (fun a => (f a).isSome) := by
  induction l with
  | nil => simp
  | cons x xs ih =>
    rw [List.filterMap_cons, List.countP_cons]
    cases hx : f x <;> simp [hx, ih]

theorem filterMap_ite_none {α : Type} (p : α → Prop) [DecidablePred p]
    (l : List α) :
    l.filterMap (fun a => if p a then none else some a)
      = l.filter (fun a => ¬ p a) := by
  induction l with
  | nil => rfl
  | cons x xs ih =>
    by_cases hx : p x <;> simp [List.filterMap_cons, hx, ih]

theorem Content.size_nonneg (c : Content) : 0 ≤ c.size := by
  cases c <;> simp [Content.size]

theorem dirSize_nonneg {fs : Fs} {p : FPath} {n : Int}
    (h : dirSize fs p = .ok n) : 0 ≤ n := by
  unfold dirSize at h
  split at h
  · exact absurd h (by simp)
  · simp only [Except.ok.injEq] at h
    subst h
    apply List.sum_nonneg
    intro x hx
    obtain ⟨e, _, rfl⟩ := List.mem_map.mp hx
    exact Content.size_nonneg _

theorem matchStep_size_nonneg {fs : Fs} {home : String} {opts : ScanOptions}
    {now : Int} {pat : String} {m : String × Int}
    (h : matchStep fs home opts now pat = some m) : 0 ≤ m.2 := by
  unfold matchStep at h
  dsimp only at h
  split at h
  · exact absurd h (by simp)
  · split at h
    · exact absurd h (by simp)
    · split at h
      · exact absurd h (by simp)
      · split at h
        · exact absurd h (by simp)
        · split at h
          · exact absurd h (by simp)
          next size hsz =>
            simp only [Option.getD_none, Option.some.injEq] at h
            subst h
            exact dirSize_nonneg hsz

theorem evalRulePath_eq_matchStep (fs : Fs) (home : String)
    (opts : ScanOptions) (now : Int) (pat : String) :
    evalRulePath fs home opts now pat =
      (matchStep fs home opts now pat).bind (fun m =>
        if opts.sizeThreshold > 0 && m.2 < opts.sizeThreshold then none
        else some m) := by
  unfold evalRulePath matchStep
  dsimp only
  split
  · rfl
  · split
    · rfl
    · split
      · rfl
      · split
        · rfl
        · split
          · rfl
          · rfl

/-! ## Claims -/

/-- C8: for every results list, `Clean` in dry-run mode returns the
flattened total size and file count with the `"DRY-RUN"` sentinel session
identifier, and the world — filesystem (no trash directory, no manifest,
no moved path) and history — is returned unchanged. -/
theorem c8_clean_dry_run_no_mutation (w : World) (baseDir : FPath)
    (timestamp : String) (nowT : Int) (results : List Result) :
    Clean w baseDir timestamp nowT results true =
      (.ok ⟨(results.map (·.totalSize)).sum,
            (results.flatMap (·.foundPaths)).length, "DRY-RUN"⟩, w) := rfl

/-- C5: for every scan, the grand total equals the sum of the contained
`Result` sizes exactly; every contained `Result` has a non-empty path
list (a rule contributing zero paths never appears); and in rule-based
mode the result list has exactly one entry per contributing rule. -/
theorem c5_scan_results_invariant (fs : Fs) (home : String)
    (registry : List CleanupRule) (opts : ScanOptions) (now : Int) :
    ((Scan fs home registry opts now).totalSize =
        ((Scan fs home registry opts now).results.map (·.totalSize)).sum)
    ∧ (∀ res ∈ (Scan fs home registry opts now).results,
        res.foundPaths ≠ [])
    ∧ (opts.largeFileMode = false →
        (Scan fs home registry opts now).results.length =
          (registry.filter (categoryOk opts)).countP
            (fun r => (evalRule fs home opts now r).isSome)) := by
  unfold Scan
  by_cases hmode : opts.largeFileMode
  · simp only [hmode, if_true]
    refine ⟨?_, ?_, ?_⟩
    · rw [scanFold_total, scanFold_results]
    · intro res hres
      rw [scanFold_results] at hres
      obtain ⟨d, _, hd⟩ := List.mem_filterMap.mp hres
      unfold evalLargeDir at hd
      dsimp only at hd
      split at hd
      · exact absurd hd (by simp)
      next hne =>
        simp only [Option.some.injEq] at hd
        subst hd
        simp only [ne_eq, List.map_eq_nil_iff]
        intro hnil
        rw [hnil] at hne
        exact hne rfl
    · intro hfalse
      exact absurd hfalse (by simp)
  · simp only [Bool.not_eq_true] at hmode
    simp only [hmode, Bool.false_eq_true, if_false]
    refine ⟨?_, ?_, fun _ => ?_⟩
    · rw [scanFold_total, scanFold_results]
    · intro res hres
      rw [scanFold_results] at hres
      obtain ⟨r, _, hr⟩ := List.mem_filterMap.mp hres
      unfold evalRule at hr
      dsimp only at hr
      split at hr
      · exact absurd hr (by simp)
      next hne =>
        simp only [Option.some.injEq] at hr
        subst hr
        simp only [ne_eq, List.map_eq_nil_iff]
        intro hnil
        rw [hnil] at hne
        exact hne rfl
    · rw [scanFold_results, length_filterMap_eq_countP]

/-- Concrete filesystem for the C4 counterexample: two files of 6 bytes
each under `/t`. -/
def c4fs : Fs :=
  { files := [⟨["t", "a"], .bytes (List.replicate 6 0), 0⟩,
              ⟨["t", "b"], .bytes (List.replicate 6 0), 0⟩]
    dirs := [⟨["t"], 0⟩] }

/-- The rule of the C4 counterexample. -/
def c4rule : CleanupRule := { name := "r", paths := ["/t/a", "/t/b"] }

/-- The options of the C4 counterexample: a minimum-size threshold of 10
bytes. -/
def c4opts : ScanOptions := { sizeThreshold := 10 }

/-- C4 counterexample: with `SizeThreshold = 10`, a rule whose two matched
paths have sizes 6 and 6 — summed matched size 12, above the threshold —
contributes no `Result` at all, because the scanner compares each path's
individual size against the threshold, not the rule's sum.  The claim
predicts one `Result` with both paths and size 12. -/
theorem c4_counterexample :
    ((matchedNoThreshold c4fs "/Users/dev" c4opts 0 c4rule).map (·.2)).sum = 12
    ∧ c4opts.sizeThreshold ≤ 12
    ∧ Scan c4fs "/Users/dev" [c4rule] c4opts 0 = ⟨[], 0⟩ :=
  ⟨by decide, by decide, by decide⟩

/-- C4 (amended): when a minimum-size threshold is set, it is applied to
each matched path's individual recursive size, not to the rule's summed
size: a matched path below the threshold is dropped, the rule contributes
a `Result` exactly when some matched path meets the threshold, and the
`Result` carries exactly the surviving paths with their summed size.  In
particular the original claim's first half still holds: if the summed
matched size is below the threshold the rule contributes nothing. -/
theorem c4_amended_per_path_threshold (fs : Fs) (home : String)
    (opts : ScanOptions) (now : Int) (r : CleanupRule)
    (hthr : 0 < opts.sizeThreshold) :
    (evalRule fs home opts now r =
      (fun kept => if kept.isEmpty then none
        else some ⟨r, kept.map (·.1), (kept.map (·.2)).sum⟩)
      ((matchedNoThreshold fs home opts now r).filter
        (fun m => opts.sizeThreshold ≤ m.2)))
    ∧ (((matchedNoThreshold fs home opts now r).map (·.2)).sum <
          opts.sizeThreshold →
        evalRule fs home opts now r = none) := by
  have hstep : ∀ pat, evalRulePath fs home opts now pat =
      (matchStep fs home opts now pat).bind (fun m =>
        if m.2 < opts.sizeThreshold then none else some m) := by
    intro pat
    rw [evalRulePath_eq_matchStep]
    cases matchStep fs home opts now pat with
    | none => rfl
    | some m =>
      have hpos : decide (opts.sizeThreshold > 0) = true := decide_eq_true hthr
      by_cases hm : m.2 < opts.sizeThreshold <;>
        simp [Option.bind, hpos, hm]
  have hmain : evalRule fs home opts now r =
      (fun kept => if kept.isEmpty then none
        else some ⟨r, kept.map (·.1), (kept.map (·.2)).sum⟩)
      ((matchedNoThreshold fs home opts now r).filter
        (fun m => opts.sizeThreshold ≤ m.2)) := by
    unfold evalRule matchedNoThreshold
    dsimp only
    have : r.paths.filterMap (evalRulePath fs home opts now) =
        (r.paths.filterMap (matchStep fs home opts now)).filter
          (fun m => opts.sizeThreshold ≤ m.2) := by
      have h1 : r.paths.filterMap (evalRulePath fs home opts now) =
          (r.paths.filterMap (matchStep fs home opts now)).filterMap
            (fun m => if m.2 < opts.sizeThreshold then none else some m) := by
        rw [List.filterMap_filterMap]
        exact List.filterMap_congr (fun pat _ => hstep pat)
      rw [h1, filterMap_ite_none
        (fun m : String × Int => m.2 < opts.sizeThreshold)]
      apply List.filter_congr
      intro m _
      simp [not_lt]
    rw [this]
  refine ⟨hmain, fun hsum => ?_⟩
  rw [hmain]
  dsimp only
  have hempty : (matchedNoThreshold fs home opts now r).filter
      (fun m => opts.sizeThreshold ≤ m.2) = [] := by
    rw [List.filter_eq_nil_iff]
    intro m hm
    simp only [decide_eq_true_eq, not_le]
    calc m.2 ≤ ((matchedNoThreshold fs home opts now r).map (·.2)).sum := by
          apply List.single_le_sum
          · intro x hx
            obtain ⟨m', hm', rfl⟩ := List.mem_map.mp hx
            obtain ⟨pat, _, hpat⟩ :=
              List.mem_filterMap.mp (by simpa [matchedNoThreshold] using hm')
            exact matchStep_size_nonneg hpat
          · exact List.mem_map_of_mem _ hm
      _ < opts.sizeThreshold := hsum
  rw [hempty]
  rfl

/-- C5 witness: the invariant instantiated on the empty catalog and empty
filesystem, with the rule-based-mode hypothesis discharged. -/
theorem c5_witness :
    (Scan ⟨[], []⟩ "" [] {} 0).results.length =
      (([] : List CleanupRule).filter (categoryOk {})).countP
        (fun r => (evalRule ⟨[], []⟩ "" {} 0 r).isSome) :=
  (c5_scan_results_invariant ⟨[], []⟩ "" [] {} 0).2.2 rfl

/-- C4 witness for the amended theorem: the per-path-threshold behaviour
at the counterexample's own input, with the positive-threshold hypothesis
discharged. -/
theorem c4_amended_witness :
    (evalRule c4fs "/Users/dev" c4opts 0 c4rule =
      (fun kept => if kept.isEmpty then none
        else some ⟨c4rule, kept.map (·.1), (kept.map (·.2)).sum⟩)
      ((matchedNoThreshold c4fs "/Users/dev" c4opts 0 c4rule).filter
        (fun m => c4opts.sizeThreshold ≤ m.2)))
    ∧ (((matchedNoThreshold c4fs "/Users/dev" c4opts 0 c4rule).map
          (·.2)).sum < c4opts.sizeThreshold →
        evalRule c4fs "/Users/dev" c4opts 0 c4rule = none) :=
  c4_amended_per_path_threshold c4fs "/Users/dev" c4opts 0 c4rule (by decide)

/-- Concrete filesystem for the C9 witness: one 6-byte file in the user's
Downloads directory. -/
def c9fs : Fs :=
  { files := [⟨["Users", "dev", "Downloads", "big"],
               .bytes [0, 0, 0, 0, 0, 0], 0⟩]
    dirs := [⟨["Users"], 0⟩, ⟨["Users", "dev"], 0⟩,
             ⟨["Users", "dev", "Downloads"], 0⟩] }

/-- Options for the C9 witness: large-file mode with a 5-byte threshold. -/
def c9opts : ScanOptions := { sizeThreshold := 5, largeFileMode := true }

/-- C9: in large-file mode, every regular file strictly larger than the
effective threshold (the explicit one, or 100 MiB when the option is zero)
under one of the five fixed user directories appears in the scan results
unconditionally; and the scan output is independent of the rule registry,
the category filter, the excluded-path list, the age filter and the clock —
none of the safety validator, exclusion or age checks is consulted. -/
theorem c9_large_file_mode_unconditional (fs : Fs) (home : String)
    (registry : List CleanupRule) (opts : ScanOptions) (now : Int)
    (hmode : opts.largeFileMode = true) :
    (∀ e ∈ fs.files, ∀ dir ∈ largeFileDirs,
        (pathComps (ExpandPath home dir)).isPrefixOf e.path →
        largeThreshold opts.sizeThreshold < e.content.size →
        ∃ res ∈ (Scan fs home registry opts now).results,
          compsToString e.path ∈ res.foundPaths)
    ∧ (∀ (registry' : List CleanupRule) (cat : String) (ex : List String)
          (ot now' : Int),
        Scan fs home registry' ⟨cat, opts.sizeThreshold, ex, ot, true⟩ now' =
          Scan fs home registry opts now) := by
  constructor
  · intro e he dir hdir hpre hsize
    have hres : (Scan fs home registry opts now).results =
        largeFileDirs.filterMap
          (evalLargeDir fs home (largeThreshold opts.sizeThreshold)) := by
      unfold Scan
      rw [hmode]
      simp only [if_true]
      exact scanFold_results _ _
    rw [hres]
    have hmem : (compsToString e.path, e.content.size) ∈
        walkLargeFiles fs (pathComps (ExpandPath home dir))
          (largeThreshold opts.sizeThreshold) := by
      unfold walkLargeFiles
      apply List.mem_map_of_mem
      rw [List.mem_filter]
      exact ⟨he, by simp [hpre, hsize]⟩
    have hne : ¬ (walkLargeFiles fs (pathComps (ExpandPath home dir))
        (largeThreshold opts.sizeThreshold)).isEmpty := by
      intro hempty
      rw [List.isEmpty_iff] at hempty
      rw [hempty] at hmem
      exact absurd hmem (List.not_mem_nil _)
    refine ⟨⟨largeFileRule (largeThreshold opts.sizeThreshold)
        (ExpandPath home dir),
      (walkLargeFiles fs (pathComps (ExpandPath home dir))
        (largeThreshold opts.sizeThreshold)).map (·.1),
      ((walkLargeFiles fs (pathComps (ExpandPath home dir))
        (largeThreshold opts.sizeThreshold)).map (·.2)).sum⟩, ?_, ?_⟩
    · apply List.mem_filterMap.mpr
      refine ⟨dir, hdir, ?_⟩
      unfold evalLargeDir
      simp only [Bool.not_eq_true] at hne
      simp [hne]
    · exact List.mem_map_of_mem _ hmem
  · intro registry' cat ex ot now'
    unfold Scan
    rw [hmode]
    rfl

/-- C9 witness: the 6-byte file in Downloads exceeds the 5-byte threshold
and appears in the large-file scan results. -/
theorem c9_witness :
    ∃ res ∈ (Scan c9fs "/Users/dev" [] c9opts 0).results,
      compsToString ["Users", "dev", "Downloads", "big"] ∈ res.foundPaths :=
  (c9_large_file_mode_unconditional c9fs "/Users/dev" [] c9opts 0 rfl).1
    ⟨["Users", "dev", "Downloads", "big"], .bytes [0, 0, 0, 0, 0, 0], 0⟩
    (by decide) "~/Downloads" (by decide) (by decide) (by decide)

theorem hasPre_append (pre rest : String) : hasPre pre (pre ++ rest) = true := by
  unfold hasPre
  rw [List.isPrefixOf_iff_prefix, String.data_append]
  exact List.prefix_append _ _

/-- C2: the home directory and the filesystem root are always denied with
the home/root reason (that check runs first); every path lying under one
of the six fixed protected prefixes is denied; and the reasons follow the
fixed check order home/root, protected prefixes, VCS metadata, user
document directories — the first failing check determines the returned
reason. -/
theorem c2_is_safe_fixed_vetoes :
    (∀ (fs : Fs) (home absPath : String), absPath = home ∨ absPath = "/" →
        IsSafe fs home absPath = (false, "Cannot delete home or root directory"))
    ∧ (∀ (fs : Fs) (home pre rest : String), pre ∈ systemPaths →
        (IsSafe fs home (pre ++ rest)).1 = false)
    ∧ (∀ (fs : Fs) (home absPath : String),
        absPath ≠ home → absPath ≠ "/" →
        systemPaths.any (fun p => hasPre p absPath) = true →
        IsSafe fs home absPath =
          (false, "Path is protected by System Integrity Protection (SIP)"))
    ∧ (∀ (fs : Fs) (home absPath : String),
        absPath ≠ home → absPath ≠ "/" →
        systemPaths.any (fun p => hasPre p absPath) = false →
        isGitRepo fs absPath = true →
        IsSafe fs home absPath = (false, "Path contains Git metadata (.git)"))
    ∧ (∀ (fs : Fs) (home absPath : String),
        absPath ≠ home → absPath ≠ "/" →
        systemPaths.any (fun p => hasPre p absPath) = false →
        isGitRepo fs absPath = false →
        (userDocPaths home).any (fun p => absPath = p) = true →
        IsSafe fs home absPath =
          (false, "Path is a common user document directory")) := by
  refine ⟨?_, ?_, ?_, ?_, ?_⟩
  · intro fs home absPath h
    unfold IsSafe
    rcases h with h | h <;> simp [h]
  · intro fs home pre rest hpre
    have hsip : systemPaths.any (fun p => hasPre p (pre ++ rest)) = true :=
      List.any_eq_true.mpr ⟨pre, hpre, hasPre_append pre rest⟩
    unfold IsSafe
    by_cases h1 : pre ++ rest = home ∨ pre ++ rest = "/"
    · rcases h1 with h1 | h1 <;> simp [h1]
    · push_neg at h1
      simp [h1.1, h1.2, hsip]
  · intro fs home absPath h1 h2 hsip
    unfold IsSafe
    simp [h1, h2, hsip]
  · intro fs home absPath h1 h2 hsip hgit
    unfold IsSafe
    simp [h1, h2, hsip, hgit]
  · intro fs home absPath h1 h2 hsip hgit hdoc
    unfold IsSafe
    simp [h1, h2, hsip, hgit, hdoc]

/-- C2 witness: the home directory, a path under `/System`, and the reason
ordering, at concrete inputs. -/
theorem c2_witness :
    IsSafe ⟨[], []⟩ "/Users/dev" "/Users/dev" =
      (false, "Cannot delete home or root directory")
    ∧ (IsSafe ⟨[], []⟩ "/Users/dev" ("/usr/bin" ++ "/ls")).1 = false
    ∧ IsSafe ⟨[], []⟩ "/Users/dev" "/System/Library" =
      (false, "Path is protected by System Integrity Protection (SIP)") :=
  ⟨c2_is_safe_fixed_vetoes.1 ⟨[], []⟩ "/Users/dev" "/Users/dev" (Or.inl rfl),
   c2_is_safe_fixed_vetoes.2.1 ⟨[], []⟩ "/Users/dev" "/usr/bin" "/ls"
     (by decide),
   c2_is_safe_fixed_vetoes.2.2.1 ⟨[], []⟩ "/Users/dev" "/System/Library"
     (by decide) (by decide) (by decide)⟩

theorem gitAscent_nil (fs : Fs) : gitAscent fs [] = fs.statOk [".git"] := rfl

theorem gitAscent_single (fs : Fs) (a : String) :
    gitAscent fs [a] = fs.statOk ([a] ++ [".git"]) := rfl

theorem gitAscent_step (fs : Fs) (cs : List String) (h : 2 ≤ cs.length) :
    gitAscent fs cs =
      (fs.statOk (cs ++ [".git"]) || gitAscent fs cs.dropLast) := by
  obtain ⟨k, hk⟩ : ∃ k, cs.length = k + 2 := ⟨cs.length - 2, by omega⟩
  have hdl : cs.dropLast.length = k + 1 := by
    rw [List.length_dropLast, hk]
    omega
  unfold gitAscent
  rw [hk, hdl]
  show (if cs.length ≤ 1 then fs.statOk (cs ++ [".git"])
    else fs.statOk (cs ++ [".git"]) || gitAscentGo fs (k + 1) cs.dropLast) = _
  rw [if_neg (by omega)]

theorem gitAscent_iff (fs : Fs) (cs : List String) (hne : cs ≠ []) :
    gitAscent fs cs = true ↔
      ∃ pre, pre ≠ [] ∧ pre <+: cs ∧ fs.statOk (pre ++ [".git"]) = true := by
  suffices hgen : ∀ (n : Nat) (cs : List String), cs.length = n → cs ≠ [] →
      (gitAscent fs cs = true ↔
        ∃ pre, pre ≠ [] ∧ pre <+: cs ∧ fs.statOk (pre ++ [".git"]) = true) from
    hgen cs.length cs rfl hne
  intro n
  induction n with
  | zero =>
    intro cs hlen hne0
    exact absurd (List.length_eq_zero.mp hlen) hne0
  | succ n ih =>
    intro cs hlen hne0
    by_cases hn : n = 0
    · subst hn
      obtain ⟨a, rfl⟩ : ∃ a, cs = [a] := by
        cases cs with
        | nil => exact absurd rfl hne0
        | cons a t =>
          cases t with
          | nil => exact ⟨a, rfl⟩
          | cons b u => simp at hlen
      rw [gitAscent_single]
      constructor
      · intro hstat
        exact ⟨[a], by simp, List.prefix_refl _, hstat⟩
      · rintro ⟨pre, hpre_ne, hpre, hstat⟩
        have hpa : pre = [a] := by
          obtain ⟨t, ht⟩ := hpre
          cases pre with
          | nil => exact absurd rfl hpre_ne
          | cons x u =>
            cases u with
            | nil =>
              simp only [List.cons_append, List.nil_append,
                List.cons.injEq] at ht
              simp [ht.1]
            | cons y v => simp at ht
        rw [← hpa]
        exact hstat
    · have h2 : 2 ≤ cs.length := by omega
      rw [gitAscent_step fs cs h2]
      have hdl_len : cs.dropLast.length = n := by
        rw [List.length_dropLast, hlen]
        omega
      have hdl_ne : cs.dropLast ≠ [] := by
        intro hcon
        rw [hcon] at hdl_len
        simp at hdl_len
        omega
      rw [Bool.or_eq_true, ih cs.dropLast hdl_len hdl_ne]
      constructor
      · rintro (hstat | ⟨pre, hpre_ne, hpre, hstat⟩)
        · exact ⟨cs, hne0, List.prefix_refl _, hstat⟩
        · exact ⟨pre, hpre_ne, hpre.trans (List.dropLast_prefix cs), hstat⟩
      · rintro ⟨pre, hpre_ne, hpre, hstat⟩
        by_cases hpc : pre = cs
        · exact Or.inl (hpc ▸ hstat)
        · refine Or.inr ⟨pre, hpre_ne, ?_, hstat⟩
          obtain ⟨t, ht⟩ := hpre
          have ht_ne : t ≠ [] := by
            intro hcon
            rw [hcon, List.append_nil] at ht
            exact hpc ht
          have hdl : cs.dropLast = pre ++ t.dropLast := by
            rw [← ht, List.dropLast_append_of_ne_nil pre ht_ne]
          rw [hdl]
          exact List.prefix_append _ _

/-- C3: the version-control veto of `IsSafe` is exactly the disjunction of
its three sub-checks — (a) the path's own basename is `.git`, (b) the
recursive descent below the path finds a `.git` directory anywhere, (c)
the ascent from the path toward the root finds `.git` at some non-root
ancestor level (at the root itself only when the path is the root) — and
any one hit makes `IsSafe` deny the path. -/
theorem c3_git_repo_three_sub_checks :
    (∀ (fs : Fs) (path : String),
        isGitRepo fs path = true ↔
          (baseName path = ".git"
           ∨ (∃ d ∈ fs.dirs, (pathComps path) <+: d.path ∧
                d.path.getLastD "" = ".git")
           ∨ (if pathComps path = [] then fs.statOk [".git"] = true
              else ∃ pre, pre ≠ [] ∧ pre <+: pathComps path ∧
                fs.statOk (pre ++ [".git"]) = true)))
    ∧ (∀ (fs : Fs) (home path : String),
        isGitRepo fs path = true → (IsSafe fs home path).1 = false) := by
  constructor
  · intro fs path
    unfold isGitRepo
    by_cases hbase : baseName path = ".git"
    · simp [hbase]
    · rw [if_neg hbase]
      by_cases hwalk : gitWalkFound fs path = true
      · rw [if_pos hwalk]
        unfold gitWalkFound at hwalk
        rw [List.any_eq_true] at hwalk
        obtain ⟨d, hd, hcond⟩ := hwalk
        simp only [Bool.and_eq_true, decide_eq_true_eq,
          List.isPrefixOf_iff_prefix] at hcond
        simp only [true_iff]
        exact Or.inr (Or.inl ⟨d, hd, hcond.1, hcond.2⟩)
      · rw [if_neg hwalk]
        by_cases hempty : pathComps path = []
        · have hasc : gitAscent fs (pathComps path) = fs.statOk [".git"] := by
            rw [hempty, gitAscent_nil]
          constructor
          · intro h
            refine Or.inr (Or.inr ?_)
            rw [if_pos hempty, ← hasc]
            exact h
          · rintro (h | ⟨d, hd, hpre, hlast⟩ | h)
            · exact absurd h hbase
            · exfalso
              apply hwalk
              unfold gitWalkFound
              refine List.any_eq_true.mpr ⟨d, hd, ?_⟩
              simp only [Bool.and_eq_true, List.isPrefixOf_iff_prefix,
                decide_eq_true_eq]
              exact ⟨hpre, hlast⟩
            · rw [if_pos hempty] at h
              rw [hasc]
              exact h
        · rw [gitAscent_iff fs _ hempty, if_neg hempty]
          constructor
          · intro h
            exact Or.inr (Or.inr h)
          · rintro (h | ⟨d, hd, hpre, hlast⟩ | h)
            · exact absurd h hbase
            · exfalso
              apply hwalk
              unfold gitWalkFound
              refine List.any_eq_true.mpr ⟨d, hd, ?_⟩
              simp only [Bool.and_eq_true, List.isPrefixOf_iff_prefix,
                decide_eq_true_eq]
              exact ⟨hpre, hlast⟩
            · exact h
  · intro fs home path hgit
    unfold IsSafe
    by_cases h1 : path = home ∨ path = "/"
    · rcases h1 with h1 | h1 <;> simp [h1]
    · push_neg at h1
      by_cases hsip : systemPaths.any (fun p => hasPre p path) = true
      · simp [h1.1, h1.2, hsip]
      · simp [h1.1, h1.2, hsip, hgit]

/-- Repository fixture for the C3 witness: `/proj/repo/.git` exists. -/
def c3fs : Fs :=
  ⟨[], [⟨["proj"], 0⟩, ⟨["proj", "repo"], 0⟩, ⟨["proj", "repo", ".git"], 0⟩]⟩

/-- C3 witness: the descent below `/proj` finds `.git`, so the validator
denies `/proj`. -/
theorem c3_witness : (IsSafe c3fs "/Users/dev" "/proj").1 = false :=
  c3_git_repo_three_sub_checks.2 c3fs "/Users/dev" "/proj" (by decide)

/-! ## Pointwise lemmas for the filesystem primitives

A successful `rename src dst` transforms the file and directory lists in
the same way; `moveList` captures that transformation generically, and the
three `moveList_find?` lemmas characterize lookups in the result by zone:
below `dst`, below `src`, or outside both. -/

/-- The list transformation a successful rename applies: drop the entry at
exactly `dst`, transport the subtree below `src`. -/
def moveList {α : Type} (proj : α → FPath) (upd : α → α) (src dst : FPath)
    (l : List α) : List α :=
  (l.filter (fun a => proj a ≠ dst)).map
    (fun a => if src.isPrefixOf (proj a) then upd a else a)

theorem moveList_find?_outside {α : Type} (proj : α → FPath) (upd : α → α)
    (src dst : FPath) (l : List α)
    (q : FPath) (hq1 : ¬ src <+: q) (hq2 : ¬ dst <+: q)
    (hupd : ∀ a, proj (upd a) = reroot src dst (proj a)) :
    (moveList proj upd src dst l).find? (fun a => proj a = q)
      = l.find? (fun a => proj a = q) := by
  induction l with
  | nil => rfl
  | cons a rest ih =>
    have hqdst : q ≠ dst := fun hc => hq2 (hc ▸ List.prefix_refl dst)
    unfold moveList at ih ⊢
    by_cases hdst : proj a = dst
    · rw [List.filter_cons_of_neg (by simp [hdst]),
        List.find?_cons_of_neg _ (by
          rw [decide_eq_true_eq, hdst]
          exact fun hc => hqdst hc.symm)]
      exact ih
    · rw [List.filter_cons_of_pos (by simp [hdst]), List.map_cons]
      by_cases hsrc : src <+: proj a
      · have hpos : List.isPrefixOf src (proj a) = true :=
          List.isPrefixOf_iff_prefix.mpr hsrc
        have hensp : ¬ proj (if List.isPrefixOf src (proj a) = true
            then upd a else a) = q := by
          rw [if_pos hpos, hupd]
          intro hc
          exact hq2 (hc ▸ List.prefix_append dst _)
        rw [List.find?_cons_of_neg _ (by rw [decide_eq_true_eq]; exact hensp)]
        have hanq : ¬ proj a = q := fun hc => hq1 (hc ▸ hsrc)
        rw [List.find?_cons_of_neg _ (by rw [decide_eq_true_eq]; exact hanq)]
        exact ih
      · have hneg : ¬ List.isPrefixOf src (proj a) = true := by
          rw [List.isPrefixOf_iff_prefix]
          exact hsrc
        rw [if_neg hneg]
        by_cases hm : proj a = q
        · rw [List.find?_cons_of_pos _ (by rw [decide_eq_true_eq]; exact hm),
            List.find?_cons_of_pos _ (by rw [decide_eq_true_eq]; exact hm)]
        · rw [List.find?_cons_of_neg _ (by rw [decide_eq_true_eq]; exact hm),
            List.find?_cons_of_neg _ (by rw [decide_eq_true_eq]; exact hm)]
          exact ih

theorem moveList_find?_dstzone {α : Type} (proj : α → FPath) (upd : α → α)
    (src dst : FPath) (l : List α)
    (q : FPath) (hq : dst <+: q) (hnsd : ¬ src <+: dst)
    (hfresh : ∀ a ∈ l, dst <+: proj a → proj a = dst)
    (hupd : ∀ a, proj (upd a) = reroot src dst (proj a)) :
    (moveList proj upd src dst l).find? (fun a => proj a = q)
      = (l.find? (fun a => proj a = src ++ q.drop dst.length)).map
          (fun a => if List.isPrefixOf src (proj a) = true then upd a else a) := by
  have htgt : src <+: src ++ q.drop dst.length := List.prefix_append _ _
  have hdst_ne_tgt : ¬ (dst : FPath) = src ++ q.drop dst.length := by
    intro hc
    exact hnsd (hc ▸ htgt)
  induction l with
  | nil => rfl
  | cons a rest ih =>
    unfold moveList at ih ⊢
    by_cases hdst : proj a = dst
    · rw [List.filter_cons_of_neg (by simp [hdst]),
        List.find?_cons_of_neg _ (by
          rw [decide_eq_true_eq, hdst]
          exact hdst_ne_tgt)]
      exact ih (fun b hb => hfresh b (List.mem_cons_of_mem a hb))
    · rw [List.filter_cons_of_pos (by simp [hdst]), List.map_cons]
      by_cases hsrc : src <+: proj a
      · have hpos : List.isPrefixOf src (proj a) = true :=
          List.isPrefixOf_iff_prefix.mpr hsrc
        have hiff : reroot src dst (proj a) = q ↔
            proj a = src ++ q.drop dst.length := by
          obtain ⟨t, ht⟩ := hsrc
          obtain ⟨u, hu⟩ := hq
          unfold reroot
          constructor
          · intro hc
            rw [← ht] at hc ⊢
            rw [List.drop_left] at hc
            rw [← hc, List.drop_left]
          · intro hc
            rw [hc, List.drop_left, ← hu, List.drop_left]
        by_cases hm : proj a = src ++ q.drop dst.length
        · have hyes : proj (if List.isPrefixOf src (proj a) = true
              then upd a else a) = q := by
            rw [if_pos hpos, hupd]
            exact hiff.mpr hm
          rw [List.find?_cons_of_pos _ (by rw [decide_eq_true_eq]; exact hyes),
            List.find?_cons_of_pos _ (by rw [decide_eq_true_eq]; exact hm)]
          rfl
        · have hno : ¬ proj (if List.isPrefixOf src (proj a) = true
              then upd a else a) = q := by
            rw [if_pos hpos, hupd]
            intro hc
            exact hm (hiff.mp hc)
          rw [List.find?_cons_of_neg _ (by rw [decide_eq_true_eq]; exact hno),
            List.find?_cons_of_neg _ (by rw [decide_eq_true_eq]; exact hm)]
          exact ih (fun b hb => hfresh b (List.mem_cons_of_mem a hb))
      · have hneg : ¬ List.isPrefixOf src (proj a) = true := by
          rw [List.isPrefixOf_iff_prefix]
          exact hsrc
        have hm1 : ¬ proj a = q := by
          intro hc
          exact hdst (hfresh a (List.mem_cons_self a rest) (hc ▸ hq))
        have hm2 : ¬ proj a = src ++ q.drop dst.length := by
          intro hc
          exact hsrc (hc ▸ htgt)
        rw [if_neg hneg,
          List.find?_cons_of_neg _ (by rw [decide_eq_true_eq]; exact hm1),
          List.find?_cons_of_neg _ (by rw [decide_eq_true_eq]; exact hm2)]
        exact ih (fun b hb => hfresh b (List.mem_cons_of_mem a hb))

theorem moveList_find?_srczone {α : Type} (proj : α → FPath) (upd : α → α)
    (src dst : FPath) (l : List α)
    (q : FPath) (hq : src <+: q) (hq2 : ¬ dst <+: q)
    (hupd : ∀ a, proj (upd a) = reroot src dst (proj a)) :
    (moveList proj upd src dst l).find? (fun a => proj a = q) = none := by
  rw [List.find?_eq_none]
  intro a ha
  unfold moveList at ha
  obtain ⟨b, hb, rfl⟩ := List.mem_map.mp ha
  by_cases hsrc : src <+: proj b
  · have hpos : List.isPrefixOf src (proj b) = true :=
      List.isPrefixOf_iff_prefix.mpr hsrc
    rw [if_pos hpos, hupd]
    intro hc
    rw [decide_eq_true_eq] at hc
    exact hq2 (hc ▸ List.prefix_append dst _)
  · have hneg : ¬ List.isPrefixOf src (proj b) = true := by
      rw [List.isPrefixOf_iff_prefix]
      exact hsrc
    rw [if_neg hneg]
    intro hc
    rw [decide_eq_true_eq] at hc
    exact hsrc (hc ▸ hq)

theorem find?_filter_eq {α : Type} (l : List α) (keep pred : α → Bool)
    (h : ∀ a, pred a = true → keep a = true) :
    (l.filter keep).find? pred = l.find? pred := by
  induction l with
  | nil => rfl
  | cons a rest ih =>
    cases hk : keep a with
    | true =>
      rw [List.filter_cons_of_pos hk]
      cases hp : pred a with
      | true => rw [List.find?_cons_of_pos _ hp, List.find?_cons_of_pos _ hp]
      | false =>
        rw [List.find?_cons_of_neg _ (by simp [hp]),
          List.find?_cons_of_neg _ (by simp [hp])]
        exact ih
    | false =>
      have hp : pred a = false := by
        cases hpa : pred a with
        | true => rw [h a hpa] at hk; cases hk
        | false => rfl
      rw [List.filter_cons_of_neg (by simp [hk]),
        List.find?_cons_of_neg _ (by simp [hp])]
      exact ih

theorem find?_filter_none {α : Type} (l : List α) (keep pred : α → Bool)
    (h : ∀ a, pred a = true → keep a = false) :
    (l.filter keep).find? pred = none := by
  rw [List.find?_eq_none]
  intro a ha hp
  have := (List.mem_filter.mp ha).2
  rw [h a hp] at this
  cases this

theorem find?_append_none {α : Type} (l1 l2 : List α) (pred : α → Bool)
    (h : l1.find? pred = none) :
    (l1 ++ l2).find? pred = l2.find? pred := by
  induction l1 with
  | nil => rfl
  | cons a rest ih =>
    rw [List.find?_eq_none] at h
    have hp : pred a = false := by
      cases hpa : pred a with
      | true => exact absurd hpa (h a (List.mem_cons_self a rest))
      | false => rfl
    rw [List.cons_append, List.find?_cons_of_neg _ (by simp [hp])]
    exact ih (by
      rw [List.find?_eq_none]
      intro b hb
      exact h b (List.mem_cons_of_mem a hb))

/-! Characterization of a successful rename. -/

theorem rename_ok_facts {fs fs' : Fs} {src dst : FPath} (hne : src ≠ dst)
    (h : fs.rename src dst = .ok fs') :
    fs.statOk src = true ∧ ¬ src <+: dst ∧
    fs'.files = moveList FileEnt.path
      (fun e => ⟨reroot src dst e.path, e.content, e.mtime⟩) src dst fs.files ∧
    fs'.dirs = moveList DirEnt.path
      (fun d => ⟨reroot src dst d.path, d.mtime⟩) src dst fs.dirs := by
  unfold Fs.rename at h
  rw [if_neg hne] at h
  split at h
  · exact absurd h (by simp)
  next hstat =>
    split at h
    · exact absurd h (by simp)
    next hpre =>
      split at h
      · exact absurd h (by simp)
      · split at h
        · exact absurd h (by simp)
        · split at h
          · exact absurd h (by simp)
          · split at h
            · exact absurd h (by simp)
            · simp only [Except.ok.injEq] at h
              subst h
              refine ⟨by simpa using hstat, ?_, rfl, rfl⟩
              intro hc
              exact hpre (List.isPrefixOf_iff_prefix.mpr hc)

theorem lookupFile_rename_outside {fs fs' : Fs} {src dst : FPath}
    (hne : src ≠ dst) (h : fs.rename src dst = .ok fs') (q : FPath)
    (hq1 : ¬ src <+: q) (hq2 : ¬ dst <+: q) :
    fs'.lookupFile q = fs.lookupFile q := by
  unfold Fs.lookupFile
  rw [(rename_ok_facts hne h).2.2.1,
    moveList_find?_outside FileEnt.path (fun e => (⟨reroot src dst e.path, e.content, e.mtime⟩ : FileEnt)) src dst fs.files q hq1 hq2 (fun a => rfl)]

theorem lookupFile_rename_dstzone {fs fs' : Fs} {src dst : FPath}
    (hne : src ≠ dst) (h : fs.rename src dst = .ok fs') (q : FPath)
    (hq : dst <+: q)
    (hfresh : ∀ e ∈ fs.files, dst <+: e.path → e.path = dst) :
    fs'.lookupFile q = fs.lookupFile (src ++ q.drop dst.length) := by
  unfold Fs.lookupFile
  rw [(rename_ok_facts hne h).2.2.1,
    moveList_find?_dstzone FileEnt.path (fun e => (⟨reroot src dst e.path, e.content, e.mtime⟩ : FileEnt)) src dst fs.files q hq (rename_ok_facts hne h).2.1 hfresh
      (fun a => rfl), Option.map_map]
  congr 1
  funext a
  dsimp only [Function.comp]
  split <;> rfl

theorem lookupFile_rename_srczone {fs fs' : Fs} {src dst : FPath}
    (hne : src ≠ dst) (h : fs.rename src dst = .ok fs') (q : FPath)
    (hq : src <+: q) (hq2 : ¬ dst <+: q) :
    fs'.lookupFile q = none := by
  unfold Fs.lookupFile
  rw [(rename_ok_facts hne h).2.2.1,
    moveList_find?_srczone FileEnt.path (fun e => (⟨reroot src dst e.path, e.content, e.mtime⟩ : FileEnt)) src dst fs.files q hq hq2 (fun a => rfl)]
  rfl

theorem isFile_eq_find? (fs : Fs) (q : FPath) :
    fs.isFile q = (fs.files.find? (fun e => e.path = q)).isSome := by
  rw [Bool.eq_iff_iff]
  unfold Fs.isFile
  rw [List.any_eq_true, List.find?_isSome]

theorem isDir_eq_find? (fs : Fs) (q : FPath) :
    fs.isDir q = (fs.dirs.find? (fun d => d.path = q)).isSome := by
  rw [Bool.eq_iff_iff]
  unfold Fs.isDir
  rw [List.any_eq_true, List.find?_isSome]

theorem isFile_rename_outside {fs fs' : Fs} {src dst : FPath}
    (hne : src ≠ dst) (h : fs.rename src dst = .ok fs') (q : FPath)
    (hq1 : ¬ src <+: q) (hq2 : ¬ dst <+: q) :
    fs'.isFile q = fs.isFile q := by
  rw [isFile_eq_find?, isFile_eq_find?, (rename_ok_facts hne h).2.2.1,
    moveList_find?_outside FileEnt.path (fun e => (⟨reroot src dst e.path, e.content, e.mtime⟩ : FileEnt)) src dst fs.files q hq1 hq2 (fun a => rfl)]

theorem isFile_rename_dstzone {fs fs' : Fs} {src dst : FPath}
    (hne : src ≠ dst) (h : fs.rename src dst = .ok fs') (q : FPath)
    (hq : dst <+: q)
    (hfresh : ∀ e ∈ fs.files, dst <+: e.path → e.path = dst) :
    fs'.isFile q = fs.isFile (src ++ q.drop dst.length) := by
  rw [isFile_eq_find?, isFile_eq_find?, (rename_ok_facts hne h).2.2.1,
    moveList_find?_dstzone FileEnt.path (fun e => (⟨reroot src dst e.path, e.content, e.mtime⟩ : FileEnt)) src dst fs.files q hq (rename_ok_facts hne h).2.1 hfresh
      (fun a => rfl), Option.isSome_map']

theorem isFile_rename_srczone {fs fs' : Fs} {src dst : FPath}
    (hne : src ≠ dst) (h : fs.rename src dst = .ok fs') (q : FPath)
    (hq : src <+: q) (hq2 : ¬ dst <+: q) :
    fs'.isFile q = false := by
  rw [isFile_eq_find?, (rename_ok_facts hne h).2.2.1,
    moveList_find?_srczone FileEnt.path (fun e => (⟨reroot src dst e.path, e.content, e.mtime⟩ : FileEnt)) src dst fs.files q hq hq2 (fun a => rfl)]
  rfl

theorem isDir_rename_outside {fs fs' : Fs} {src dst : FPath}
    (hne : src ≠ dst) (h : fs.rename src dst = .ok fs') (q : FPath)
    (hq1 : ¬ src <+: q) (hq2 : ¬ dst <+: q) :
    fs'.isDir q = fs.isDir q := by
  rw [isDir_eq_find?, isDir_eq_find?, (rename_ok_facts hne h).2.2.2,
    moveList_find?_outside DirEnt.path (fun d => (⟨reroot src dst d.path, d.mtime⟩ : DirEnt)) src dst fs.dirs q hq1 hq2 (fun a => rfl)]

theorem isDir_rename_dstzone {fs fs' : Fs} {src dst : FPath}
    (hne : src ≠ dst) (h : fs.rename src dst = .ok fs') (q : FPath)
    (hq : dst <+: q)
    (hfresh : ∀ d ∈ fs.dirs, dst <+: d.path → d.path = dst) :
    fs'.isDir q = fs.isDir (src ++ q.drop dst.length) := by
  rw [isDir_eq_find?, isDir_eq_find?, (rename_ok_facts hne h).2.2.2,
    moveList_find?_dstzone DirEnt.path (fun d => (⟨reroot src dst d.path, d.mtime⟩ : DirEnt)) src dst fs.dirs q hq (rename_ok_facts hne h).2.1 hfresh
      (fun a => rfl), Option.isSome_map']

theorem isDir_rename_srczone {fs fs' : Fs} {src dst : FPath}
    (hne : src ≠ dst) (h : fs.rename src dst = .ok fs') (q : FPath)
    (hq : src <+: q) (hq2 : ¬ dst <+: q) :
    fs'.isDir q = false := by
  rw [isDir_eq_find?, (rename_ok_facts hne h).2.2.2,
    moveList_find?_srczone DirEnt.path (fun d => (⟨reroot src dst d.path, d.mtime⟩ : DirEnt)) src dst fs.dirs q hq hq2 (fun a => rfl)]
  rfl

/-! Characterization of `mkdirAll`, `writeFile`, `removeAll`. -/

theorem mkdirAll_ok_files {fs fs' : Fs} {p : FPath} {m : Int}
    (h : fs.mkdirAll p m = .ok fs') : fs'.files = fs.files := by
  unfold Fs.mkdirAll at h
  split at h
  · exact absurd h (by simp)
  · simp only [Except.ok.injEq] at h
    subst h
    rfl

theorem mkdirAll_ok_isFile {fs fs' : Fs} {p : FPath} {m : Int}
    (h : fs.mkdirAll p m = .ok fs') (q : FPath) :
    fs'.isFile q = fs.isFile q := by
  rw [isFile_eq_find?, isFile_eq_find?, mkdirAll_ok_files h]

theorem mkdirAll_ok_lookupFile {fs fs' : Fs} {p : FPath} {m : Int}
    (h : fs.mkdirAll p m = .ok fs') (q : FPath) :
    fs'.lookupFile q = fs.lookupFile q := by
  unfold Fs.lookupFile
  rw [mkdirAll_ok_files h]

theorem mkdirAll_ok_dirs {fs fs' : Fs} {p : FPath} {m : Int}
    (h : fs.mkdirAll p m = .ok fs') :
    fs'.dirs = fs.dirs ++ ((initialSegs p).filter
      (fun q => ¬ q.isEmpty ∧ ¬ fs.isDir q)).map (fun q => ⟨q, m⟩) := by
  unfold Fs.mkdirAll at h
  split at h
  · exact absurd h (by simp)
  · simp only [Except.ok.injEq] at h
    subst h
    rfl

theorem mkdirAll_ok_isDir_of {fs fs' : Fs} {p : FPath} {m : Int}
    (h : fs.mkdirAll p m = .ok fs') (q : FPath) (hq : fs.isDir q = true) :
    fs'.isDir q = true := by
  unfold Fs.isDir at hq ⊢
  rw [mkdirAll_ok_dirs h, List.any_append, hq]
  rfl

theorem self_mem_initialSegs (p : FPath) : p ∈ initialSegs p := by
  unfold initialSegs
  exact List.mem_map.mpr ⟨p.length, by simp [List.mem_range], by simp⟩

theorem mkdirAll_ok_isDir_self {fs fs' : Fs} {p : FPath} {m : Int}
    (h : fs.mkdirAll p m = .ok fs') (hne : p ≠ []) : fs'.isDir p = true := by
  by_cases hq : fs.isDir p = true
  · exact mkdirAll_ok_isDir_of h p hq
  · unfold Fs.isDir
    rw [mkdirAll_ok_dirs h, List.any_append, Bool.or_eq_true]
    right
    apply List.any_eq_true.mpr
    refine ⟨⟨p, m⟩, List.mem_map.mpr ⟨p, ?_, rfl⟩, by simp⟩
    rw [List.mem_filter]
    refine ⟨self_mem_initialSegs p, ?_⟩
    simp only [decide_eq_true_eq]
    constructor
    · simpa using hne
    · simpa using hq

theorem mkdirAll_ok_isDir_rev {fs fs' : Fs} {p : FPath} {m : Int}
    (h : fs.mkdirAll p m = .ok fs') (q : FPath) (hq : fs'.isDir q = true) :
    fs.isDir q = true ∨ q ∈ initialSegs p := by
  unfold Fs.isDir at hq
  rw [mkdirAll_ok_dirs h, List.any_append, Bool.or_eq_true] at hq
  rcases hq with h1 | h2
  · exact Or.inl h1
  · right
    obtain ⟨d, hd, hdq⟩ := List.any_eq_true.mp h2
    obtain ⟨q', hq', rfl⟩ := List.mem_map.mp hd
    rw [decide_eq_true_eq] at hdq
    have hqq : q' = q := hdq
    exact hqq ▸ (List.mem_filter.mp hq').1

theorem mkdirAll_error_iff {fs : Fs} {p : FPath} {m : Int} :
    (∃ e, fs.mkdirAll p m = .error e) ↔
      (initialSegs p).any (fun q => fs.isFile q) = true := by
  unfold Fs.mkdirAll
  constructor
  · rintro ⟨e, he⟩
    by_cases hc : (initialSegs p).any (fun q => fs.isFile q) = true
    · exact hc
    · rw [if_neg hc] at he
      cases he
  · intro hc
    rw [if_pos hc]
    exact ⟨_, rfl⟩

theorem writeFile_ok_dirs {fs fs' : Fs} {p : FPath} {c : Content} {m : Int}
    (h : fs.writeFile p c m = .ok fs') : fs'.dirs = fs.dirs := by
  unfold Fs.writeFile at h
  split at h
  · exact absurd h (by simp)
  · split at h
    · exact absurd h (by simp)
    · simp only [Except.ok.injEq] at h
      subst h
      rfl

theorem writeFile_ok_isDir {fs fs' : Fs} {p : FPath} {c : Content} {m : Int}
    (h : fs.writeFile p c m = .ok fs') (q : FPath) :
    fs'.isDir q = fs.isDir q := by
  rw [isDir_eq_find?, isDir_eq_find?, writeFile_ok_dirs h]

theorem writeFile_ok_files {fs fs' : Fs} {p : FPath} {c : Content} {m : Int}
    (h : fs.writeFile p c m = .ok fs') :
    fs'.files = (fs.files.filter (fun e => e.path ≠ p)) ++ [⟨p, c, m⟩] := by
  unfold Fs.writeFile at h
  split at h
  · exact absurd h (by simp)
  · split at h
    · exact absurd h (by simp)
    · simp only [Except.ok.injEq] at h
      subst h
      rfl

theorem writeFile_ok_lookup_self {fs fs' : Fs} {p : FPath} {c : Content}
    {m : Int} (h : fs.writeFile p c m = .ok fs') :
    fs'.lookupFile p = some c := by
  unfold Fs.lookupFile
  rw [writeFile_ok_files h,
    find?_append_none _ _ _ (find?_filter_none _ _ _ (by
      intro a ha
      rw [decide_eq_true_eq] at ha
      simp [ha]))]
  simp [List.find?_cons]

theorem find?_append_single_ne {α : Type} (l : List α) (pred : α → Bool)
    (x : α) (hx : pred x = false) :
    (l ++ [x]).find? pred = l.find? pred := by
  induction l with
  | nil =>
    rw [List.nil_append, List.find?_cons_of_neg _ (by simp [hx])]
  | cons a rest ih =>
    cases hpa : pred a with
    | true =>
      rw [List.cons_append, List.find?_cons_of_pos _ hpa,
        List.find?_cons_of_pos _ hpa]
    | false =>
      rw [List.cons_append, List.find?_cons_of_neg _ (by simp [hpa]),
        List.find?_cons_of_neg _ (by simp [hpa])]
      exact ih

theorem writeFile_ok_lookup_other {fs fs' : Fs} {p : FPath} {c : Content}
    {m : Int} (h : fs.writeFile p c m = .ok fs') (q : FPath) (hq : q ≠ p) :
    fs'.lookupFile q = fs.lookupFile q := by
  unfold Fs.lookupFile
  rw [writeFile_ok_files h,
    find?_append_single_ne _ _ _ (by
      simp only [decide_eq_false_iff_not]
      exact fun hc => hq hc.symm),
    find?_filter_eq _ _ _ (by
      intro a ha
      rw [decide_eq_true_eq] at ha
      simp [ha, hq])]

theorem removeAll_lookupFile (fs : Fs) (p q : FPath) :
    (fs.removeAll p).lookupFile q =
      if p <+: q then none else fs.lookupFile q := by
  unfold Fs.removeAll Fs.lookupFile
  dsimp only
  by_cases hq : p <+: q
  · rw [if_pos hq, find?_filter_none _ _ _ (by
      intro a ha
      rw [decide_eq_true_eq] at ha
      simp [ha, hq])]
    rfl
  · rw [if_neg hq, find?_filter_eq _ _ _ (by
      intro a ha
      rw [decide_eq_true_eq] at ha
      subst ha
      simpa using hq)]

theorem removeAll_isFile (fs : Fs) (p q : FPath) :
    (fs.removeAll p).isFile q = if p <+: q then false else fs.isFile q := by
  rw [isFile_eq_find?, isFile_eq_find?]
  unfold Fs.removeAll
  dsimp only
  by_cases hq : p <+: q
  · rw [if_pos hq, find?_filter_none _ _ _ (by
      intro a ha
      rw [decide_eq_true_eq] at ha
      simp [ha, hq])]
    rfl
  · rw [if_neg hq, find?_filter_eq _ _ _ (by
      intro a ha
      rw [decide_eq_true_eq] at ha
      subst ha
      simpa using hq)]

theorem removeAll_isDir (fs : Fs) (p q : FPath) :
    (fs.removeAll p).isDir q = if p <+: q then false else fs.isDir q := by
  rw [isDir_eq_find?, isDir_eq_find?]
  unfold Fs.removeAll
  dsimp only
  by_cases hq : p <+: q
  · rw [if_pos hq, find?_filter_none _ _ _ (by
      intro a ha
      rw [decide_eq_true_eq] at ha
      simp [ha, hq])]
    rfl
  · rw [if_neg hq, find?_filter_eq _ _ _ (by
      intro a ha
      rw [decide_eq_true_eq] at ha
      subst ha
      simpa using hq)]

/-! ## The move loop -/

theorem moveLoop_nil (fs : Fs) (s : FPath) (acc : List TrashEntry) :
    moveLoop fs s [] acc = (Except.ok acc, fs) := rfl

theorem moveLoop_cons (fs : Fs) (s p : FPath) (rest : List FPath)
    (acc : List TrashEntry) :
    moveLoop fs s (p :: rest) acc =
      match fs.rename p (s ++ [fpBase p]) with
      | Except.error e =>
        (Except.error ("failed to move to trash: " ++ e), fs)
      | Except.ok fs2 =>
        moveLoop fs2 s rest (acc ++ [TrashEntry.mk p (s ++ [fpBase p])]) := rfl

theorem MoveToTrash_eq (fs : Fs) (baseDir : FPath) (timestamp : String)
    (nowT : Int) (paths : List FPath) :
    MoveToTrash fs baseDir timestamp nowT paths =
      match fs.mkdirAll (baseDir ++ [timestamp]) nowT with
      | Except.error e =>
        (Except.error ("failed to create trash directory: " ++ e), fs)
      | Except.ok fs1 =>
        match moveLoop fs1 (baseDir ++ [timestamp]) paths [] with
        | (Except.error e, fs2) => (Except.error e, fs2)
        | (Except.ok entries, fs2) =>
          match fs2.writeFile ((baseDir ++ [timestamp]) ++ [manifestName])
              (Content.manifestData ⟨nowT, entries⟩) nowT with
          | Except.error e =>
            (Except.error ("failed to write manifest: " ++ e), fs2)
          | Except.ok fs3 => (Except.ok timestamp, fs3) := rfl

theorem moveLoop_append (fs : Fs) (sessionDir : FPath) (xs ys : List FPath)
    (acc : List TrashEntry) :
    moveLoop fs sessionDir (xs ++ ys) acc =
      match moveLoop fs sessionDir xs acc with
      | (Except.error e, fs') => (Except.error e, fs')
      | (Except.ok acc', fs') => moveLoop fs' sessionDir ys acc' := by
  induction xs generalizing fs acc with
  | nil => rfl
  | cons p rest ih =>
    rw [List.cons_append, moveLoop_cons, moveLoop_cons]
    cases hr : fs.rename p (sessionDir ++ [fpBase p]) with
    | error e => rfl
    | ok fs2 => exact ih fs2 _

theorem moveLoop_ok_entries (sessionDir : FPath) :
    ∀ (paths : List FPath) (fs fsEnd : Fs) (acc entries : List TrashEntry),
    moveLoop fs sessionDir paths acc = (Except.ok entries, fsEnd) →
    entries = acc ++ paths.map (fun p => ⟨p, sessionDir ++ [fpBase p]⟩) := by
  intro paths
  induction paths with
  | nil =>
    intro fs fsEnd acc entries h
    rw [moveLoop_nil] at h
    simp only [Prod.mk.injEq, Except.ok.injEq] at h
    simp [← h.1]
  | cons p rest ih =>
    intro fs fsEnd acc entries h
    rw [moveLoop_cons] at h
    cases hr : fs.rename p (sessionDir ++ [fpBase p]) with
    | error e =>
      rw [hr] at h
      exact absurd h (by simp)
    | ok fs2 =>
      rw [hr] at h
      have := ih fs2 fsEnd _ entries h
      rw [this]
      simp

/-- C6: if a rename fails for some path in the middle of the list, the
whole `MoveToTrash` call fails with that error, no later path is moved —
the final state is exactly the state after the earlier moves, independent
of the rest of the list — and the paths already moved stay moved (no
rollback). -/
theorem c6_move_error_keeps_partial_state (fs fs1 fsPre : Fs)
    (baseDir : FPath) (timestamp : String) (nowT : Int)
    (pre post : List FPath) (bad : FPath) (entries : List TrashEntry)
    (e : String)
    (hmk : fs.mkdirAll (baseDir ++ [timestamp]) nowT = .ok fs1)
    (hpre : moveLoop fs1 (baseDir ++ [timestamp]) pre [] = (.ok entries, fsPre))
    (hbad : fsPre.rename bad ((baseDir ++ [timestamp]) ++ [fpBase bad]) =
      .error e) :
    MoveToTrash fs baseDir timestamp nowT (pre ++ bad :: post) =
      (.error ("failed to move to trash: " ++ e), fsPre) := by
  rw [MoveToTrash_eq, hmk]
  show (match moveLoop fs1 (baseDir ++ [timestamp]) (pre ++ bad :: post) []
      with
    | (Except.error e, fs2) => (Except.error e, fs2)
    | (Except.ok entries, fs2) =>
      match fs2.writeFile ((baseDir ++ [timestamp]) ++ [manifestName])
          (Content.manifestData ⟨nowT, entries⟩) nowT with
      | Except.error e =>
        (Except.error ("failed to write manifest: " ++ e), fs2)
      | Except.ok fs3 => (Except.ok timestamp, fs3)) = _
  rw [moveLoop_append, hpre]
  show (match moveLoop fsPre (baseDir ++ [timestamp]) (bad :: post) entries
      with
    | (Except.error e, fs2) => (Except.error e, fs2)
    | (Except.ok entries, fs2) =>
      match fs2.writeFile ((baseDir ++ [timestamp]) ++ [manifestName])
          (Content.manifestData ⟨nowT, entries⟩) nowT with
      | Except.error e =>
        (Except.error ("failed to write manifest: " ++ e), fs2)
      | Except.ok fs3 => (Except.ok timestamp, fs3)) = _
  rw [moveLoop_cons, hbad]

/-- Extract the filesystem from a successful primitive, for building
concrete witness states. -/
def exOk (r : Except String Fs) : Fs :=
  match r with
  | .ok f => f
  | .error _ => ⟨[], []⟩

/-- Concrete filesystem for the C6 witness. -/
def c6fs : Fs :=
  ⟨[⟨["a", "x"], .bytes [1], 0⟩, ⟨["a", "y"], .bytes [2], 0⟩], [⟨["a"], 0⟩]⟩

/-- The C6 witness state after the session directory is created. -/
def c6fs1 : Fs := exOk (c6fs.mkdirAll ["tr", "s1"] 7)

/-- The C6 witness state after the first path is moved. -/
def c6fsPre : Fs := (moveLoop c6fs1 ["tr", "s1"] [["a", "x"]] []).2

/-- C6 witness: moving `/a/x`, then the missing `/a/missing`, then `/a/y`
fails at the second path; `/a/x` stays in the trash and `/a/y` is never
moved. -/
theorem c6_witness :
    MoveToTrash c6fs ["tr"] "s1" 7
        [["a", "x"], ["a", "missing"], ["a", "y"]] =
      (.error ("failed to move to trash: " ++ "no such file or directory"),
       c6fsPre) :=
  c6_move_error_keeps_partial_state c6fs c6fs1 c6fsPre ["tr"] "s1" 7
    [["a", "x"]] [["a", "y"]] ["a", "missing"]
    [⟨["a", "x"], ["tr", "s1", "x"]⟩] "no such file or directory"
    rfl rfl rfl

/-! ## The move-phase invariant

`MInv g f sess done` describes the filesystem `f` reached from `g` after
the paths in `done` have been moved into the session directory `sess`:
queries below a trash slot read from the original subtree, queries below
a moved original path find nothing, and everything else is untouched. -/

/-- The trash slot of a path inside a session directory. -/
def tpOf (sess p : FPath) : FPath := sess ++ [fpBase p]

theorem tpOf_length (sess : FPath) (p : FPath) :
    (tpOf sess p).length = sess.length + 1 := by
  simp [tpOf]

theorem rename_all_outside {fs fs' : Fs} {src dst : FPath}
    (hne : src ≠ dst) (h : fs.rename src dst = .ok fs') (q : FPath)
    (hq1 : ¬ src <+: q) (hq2 : ¬ dst <+: q) :
    fs'.lookupFile q = fs.lookupFile q ∧ fs'.isFile q = fs.isFile q
      ∧ fs'.isDir q = fs.isDir q :=
  ⟨lookupFile_rename_outside hne h q hq1 hq2,
   isFile_rename_outside hne h q hq1 hq2,
   isDir_rename_outside hne h q hq1 hq2⟩

theorem rename_all_dstzone {fs fs' : Fs} {src dst : FPath}
    (hne : src ≠ dst) (h : fs.rename src dst = .ok fs') (q : FPath)
    (hq : dst <+: q)
    (hfreshF : ∀ e ∈ fs.files, dst <+: e.path → e.path = dst)
    (hfreshD : ∀ d ∈ fs.dirs, dst <+: d.path → d.path = dst) :
    fs'.lookupFile q = fs.lookupFile (src ++ q.drop dst.length)
      ∧ fs'.isFile q = fs.isFile (src ++ q.drop dst.length)
      ∧ fs'.isDir q = fs.isDir (src ++ q.drop dst.length) :=
  ⟨lookupFile_rename_dstzone hne h q hq hfreshF,
   isFile_rename_dstzone hne h q hq hfreshF,
   isDir_rename_dstzone hne h q hq hfreshD⟩

theorem rename_all_srczone {fs fs' : Fs} {src dst : FPath}
    (hne : src ≠ dst) (h : fs.rename src dst = .ok fs') (q : FPath)
    (hq : src <+: q) (hq2 : ¬ dst <+: q) :
    fs'.lookupFile q = none ∧ fs'.isFile q = false ∧ fs'.isDir q = false :=
  ⟨lookupFile_rename_srczone hne h q hq hq2,
   isFile_rename_srczone hne h q hq hq2,
   isDir_rename_srczone hne h q hq hq2⟩

/-- The state invariant of the rename loop of `MoveToTrash`. -/
def MInv (g f : Fs) (sess : FPath) (done : List FPath) : Prop :=
  (∀ q p', p' ∈ done → tpOf sess p' <+: q →
     (f.lookupFile q = g.lookupFile (p' ++ q.drop (sess.length + 1))
      ∧ f.isFile q = g.isFile (p' ++ q.drop (sess.length + 1))
      ∧ f.isDir q = g.isDir (p' ++ q.drop (sess.length + 1))))
  ∧ (∀ q p', p' ∈ done → p' <+: q →
     (f.lookupFile q = none ∧ f.isFile q = false ∧ f.isDir q = false))
  ∧ (∀ q, (∀ p' ∈ done, ¬ tpOf sess p' <+: q ∧ ¬ p' <+: q) →
     (f.lookupFile q = g.lookupFile q ∧ f.isFile q = g.isFile q
      ∧ f.isDir q = g.isDir q))

theorem MInv_nil (g : Fs) (sess : FPath) : MInv g g sess [] := by
  refine ⟨?_, ?_, ?_⟩
  · intro q p' hp'
    cases hp'
  · intro q p' hp'
    cases hp'
  · intro q _
    exact ⟨rfl, rfl, rfl⟩

theorem isFile_of_mem_files {fs : Fs} {e : FileEnt} (h : e ∈ fs.files) :
    fs.isFile e.path = true := by
  unfold Fs.isFile
  exact List.any_eq_true.mpr ⟨e, h, by simp⟩

theorem isDir_of_mem_dirs {fs : Fs} {d : DirEnt} (h : d ∈ fs.dirs) :
    fs.isDir d.path = true := by
  unfold Fs.isDir
  exact List.any_eq_true.mpr ⟨d, h, by simp⟩

theorem isFile_false_lookup {fs : Fs} {q : FPath} (h : fs.isFile q = false) :
    fs.lookupFile q = none := by
  unfold Fs.lookupFile
  have hf : fs.files.find? (fun e => e.path = q) = none := by
    rw [List.find?_eq_none]
    intro e he hp
    rw [decide_eq_true_eq] at hp
    rw [← hp] at h
    rw [isFile_of_mem_files he] at h
    cases h
  rw [hf]
  rfl

theorem sess_prefix_tpOf (sess : FPath) (p : FPath) : sess <+: tpOf sess p :=
  List.prefix_append _ _

theorem tpOf_inj {sess : FPath} {p p' : FPath}
    (hbase : fpBase p ≠ fpBase p') : tpOf sess p ≠ tpOf sess p' := by
  intro hc
  unfold tpOf at hc
  rw [List.append_cancel_left_eq] at hc
  simp only [List.cons.injEq, and_true] at hc
  exact hbase hc

theorem prefix_tpOf_cases {sess : FPath} {l p : FPath}
    (h : l <+: tpOf sess p) : l <+: sess ∨ l = tpOf sess p := by
  unfold tpOf at h ⊢
  rcases List.prefix_concat_iff.mp h with h | h
  · exact Or.inr h
  · exact Or.inl h

theorem eq_of_prefix_prefix_length {a b q : FPath} (ha : a <+: q)
    (hb : b <+: q) (hlen : a.length = b.length) : a = b := by
  rcases List.prefix_or_prefix_of_prefix ha hb with h | h
  · exact List.IsPrefix.eq_of_length_le h (by omega)
  · exact (List.IsPrefix.eq_of_length_le h (by omega)).symm

theorem moveLoop_ok_inv (g : Fs) (sess : FPath) (P : List FPath)
    (HS : ∀ p ∈ P, ¬ sess <+: p)
    (HP : List.Pairwise (fun p q => ¬ p <+: q ∧ ¬ q <+: p) P)
    (HBse : List.Pairwise (fun p q => fpBase p ≠ fpBase q) P)
    (HGf : ∀ e ∈ g.files, ¬ sess <+: e.path)
    (HGd : ∀ d ∈ g.dirs, sess <+: d.path → d.path = sess) :
    ∀ (rest done : List FPath) (f : Fs) (acc entries : List TrashEntry)
      (fsEnd : Fs),
      P = done ++ rest →
      (∀ p' ∈ done, ¬ p' <+: sess) →
      MInv g f sess done →
      moveLoop f sess rest acc = (Except.ok entries, fsEnd) →
      ((∀ p' ∈ P, ¬ p' <+: sess) ∧ MInv g fsEnd sess P) := by
  intro rest
  induction rest with
  | nil =>
    intro done f acc entries fsEnd hsplit hder hinv hrun
    rw [moveLoop_nil] at hrun
    simp only [Prod.mk.injEq] at hrun
    rw [List.append_nil] at hsplit
    subst hsplit
    rw [← hrun.2]
    exact ⟨hder, hinv⟩
  | cons p rest' ih =>
    intro done f acc entries fsEnd hsplit hder hinv hrun
    rw [moveLoop_cons] at hrun
    cases hrename : f.rename p (sess ++ [fpBase p]) with
    | error e =>
      rw [hrename] at hrun
      exact absurd hrun (by simp)
    | ok f2 =>
      rw [hrename] at hrun
      have hrename' : f.rename p (tpOf sess p) = Except.ok f2 := hrename
      have hpP : p ∈ P := by
        rw [hsplit]
        exact List.mem_append_right done (List.mem_cons_self p rest')
      have hsp : ¬ sess <+: p := HS p hpP
      have hne : p ≠ tpOf sess p := by
        intro hc
        exact hsp (hc ▸ sess_prefix_tpOf sess p)
      have hfacts := rename_ok_facts hne hrename'
      have hnst : ¬ p <+: tpOf sess p := hfacts.2.1
      have hpns : ¬ p <+: sess := by
        intro hc
        exact hnst (hc.trans (sess_prefix_tpOf sess p))
      have hPsplit : List.Pairwise (fun p q => ¬ p <+: q ∧ ¬ q <+: p)
          (done ++ p :: rest') := hsplit ▸ HP
      have hBsplit : List.Pairwise (fun p q => fpBase p ≠ fpBase q)
          (done ++ p :: rest') := hsplit ▸ HBse
      have hR : ∀ p' ∈ done, ¬ p' <+: p ∧ ¬ p <+: p' := by
        intro p' hp'
        exact (List.pairwise_append.mp hPsplit).2.2 p' hp' p
          (List.mem_cons_self p rest')
      have hB : ∀ p' ∈ done, fpBase p' ≠ fpBase p := by
        intro p' hp'
        exact (List.pairwise_append.mp hBsplit).2.2 p' hp' p
          (List.mem_cons_self p rest')
      have hdoneP : ∀ p' ∈ done, p' ∈ P := by
        intro p' hp'
        rw [hsplit]
        exact List.mem_append_left _ hp'
      have hdisj : ∀ q : FPath, p <+: q → ¬ tpOf sess p <+: q := by
        intro q h1 h2
        rcases List.prefix_or_prefix_of_prefix h1 h2 with h | h
        · exact hnst h
        · exact hsp ((sess_prefix_tpOf sess p).trans h)
      have hq_done_tp : ∀ p' ∈ done, ∀ q : FPath, tpOf sess p' <+: q →
          ¬ p <+: q ∧ ¬ tpOf sess p <+: q := by
        intro p' hp' q hq
        constructor
        · intro hc
          rcases List.prefix_or_prefix_of_prefix hc hq with h | h
          · rcases prefix_tpOf_cases h with h | h
            · exact hpns h
            · exact hsp (h ▸ sess_prefix_tpOf sess p')
          · exact hsp ((sess_prefix_tpOf sess p').trans h)
        · intro hc
          have heq : tpOf sess p = tpOf sess p' :=
            eq_of_prefix_prefix_length hc hq
              (by rw [tpOf_length, tpOf_length])
          exact tpOf_inj (hB p' hp').symm heq
      have hq_done_orig : ∀ p' ∈ done, ∀ q : FPath, p' <+: q →
          ¬ p <+: q ∧ ¬ tpOf sess p <+: q := by
        intro p' hp' q hq
        constructor
        · intro hc
          rcases List.prefix_or_prefix_of_prefix hc hq with h | h
          · exact (hR p' hp').2 h
          · exact (hR p' hp').1 h
        · intro hc
          rcases List.prefix_or_prefix_of_prefix hc hq with h | h
          · exact HS p' (hdoneP p' hp') ((sess_prefix_tpOf sess p).trans h)
          · rcases prefix_tpOf_cases h with h | h
            · exact hder p' hp' h
            · exact HS p' (hdoneP p' hp') (h ▸ sess_prefix_tpOf sess p)
      have helse_zone : ∀ q : FPath, tpOf sess p <+: q →
          ∀ p' ∈ done, ¬ tpOf sess p' <+: q ∧ ¬ p' <+: q := by
        intro q hq p' hp'
        constructor
        · intro hc
          have heq : tpOf sess p' = tpOf sess p :=
            eq_of_prefix_prefix_length hc hq
              (by rw [tpOf_length, tpOf_length])
          exact tpOf_inj (hB p' hp') heq
        · intro hc
          exact (hq_done_orig p' hp' q hc).2 hq
      have hfreshF : ∀ e ∈ f.files, tpOf sess p <+: e.path →
          e.path = tpOf sess p := by
        intro e he hpe
        exfalso
        have hxf := isFile_of_mem_files he
        have helse := (hinv.2.2 e.path (helse_zone e.path hpe)).2.1
        rw [helse] at hxf
        have : ∃ e' ∈ g.files, e'.path = e.path := by
          unfold Fs.isFile at hxf
          obtain ⟨e', he', hpe'⟩ := List.any_eq_true.mp hxf
          rw [decide_eq_true_eq] at hpe'
          exact ⟨e', he', hpe'⟩
        obtain ⟨e', he', hpe'⟩ := this
        exact HGf e' he' (hpe' ▸ ((sess_prefix_tpOf sess p).trans hpe))
      have hfreshD : ∀ d ∈ f.dirs, tpOf sess p <+: d.path →
          d.path = tpOf sess p := by
        intro d hd hpd
        exfalso
        have hxd := isDir_of_mem_dirs hd
        have helse := (hinv.2.2 d.path (helse_zone d.path hpd)).2.2
        rw [helse] at hxd
        have : ∃ d' ∈ g.dirs, d'.path = d.path := by
          unfold Fs.isDir at hxd
          obtain ⟨d', hd', hpd'⟩ := List.any_eq_true.mp hxd
          rw [decide_eq_true_eq] at hpd'
          exact ⟨d', hd', hpd'⟩
        obtain ⟨d', hd', hpd'⟩ := this
        have hds : d.path = sess :=
          hpd' ▸ HGd d' hd' (hpd' ▸ ((sess_prefix_tpOf sess p).trans hpd))
        have := hpd.length_le
        rw [hds, tpOf_length] at this
        omega
      have hinv2 : MInv g f2 sess (done ++ [p]) := by
        refine ⟨?_, ?_, ?_⟩
        · intro q p'' hp'' hq
          rcases List.mem_append.mp hp'' with hmem | hmem
          · have hzone := hq_done_tp p'' hmem q hq
            have hout := rename_all_outside hne hrename' q hzone.1 hzone.2
            have hold := hinv.1 q p'' hmem hq
            exact ⟨hout.1.trans hold.1, hout.2.1.trans hold.2.1,
              hout.2.2.trans hold.2.2⟩
          · have hpp : p'' = p := List.mem_singleton.mp hmem
            subst hpp
            have hdz := rename_all_dstzone hne hrename' q hq hfreshF hfreshD
            rw [tpOf_length] at hdz
            have hyelse : ∀ p' ∈ done,
                ¬ tpOf sess p' <+: p'' ++ q.drop (sess.length + 1)
                ∧ ¬ p' <+: p'' ++ q.drop (sess.length + 1) := by
              intro p' hp'
              have hpy : p'' <+: p'' ++ q.drop (sess.length + 1) :=
                List.prefix_append _ _
              constructor
              · intro hc
                rcases List.prefix_or_prefix_of_prefix hc hpy with h | h
                · exact hsp ((sess_prefix_tpOf sess p').trans h)
                · rcases prefix_tpOf_cases h with h | h
                  · exact hpns h
                  · exact hsp (by rw [h]; exact sess_prefix_tpOf sess p')
              · intro hc
                rcases List.prefix_or_prefix_of_prefix hc hpy with h | h
                · exact (hR p' hp').1 h
                · exact (hR p' hp').2 h
            have hmid := hinv.2.2 (p'' ++ q.drop (sess.length + 1)) hyelse
            exact ⟨hdz.1.trans hmid.1, hdz.2.1.trans hmid.2.1,
              hdz.2.2.trans hmid.2.2⟩
        · intro q p'' hp'' hq
          rcases List.mem_append.mp hp'' with hmem | hmem
          · have hzone := hq_done_orig p'' hmem q hq
            have hout := rename_all_outside hne hrename' q hzone.1 hzone.2
            have hold := hinv.2.1 q p'' hmem hq
            exact ⟨hout.1.trans hold.1, hout.2.1.trans hold.2.1,
              hout.2.2.trans hold.2.2⟩
          · have hpp : p'' = p := List.mem_singleton.mp hmem
            subst hpp
            exact rename_all_srczone hne hrename' q hq (hdisj q hq)
        · intro q hq
          have hqp := hq p (List.mem_append_right done
            (List.mem_singleton.mpr rfl))
          have hout := rename_all_outside hne hrename' q hqp.2 hqp.1
          have hold := hinv.2.2 q (fun p' hp' =>
            hq p' (List.mem_append_left _ hp'))
          exact ⟨hout.1.trans hold.1, hout.2.1.trans hold.2.1,
            hout.2.2.trans hold.2.2⟩
      have hder2 : ∀ p' ∈ done ++ [p], ¬ p' <+: sess := by
        intro p' hp'
        rcases List.mem_append.mp hp' with hmem | hmem
        · exact hder p' hmem
        · exact (List.mem_singleton.mp hmem) ▸ hpns
      have hsplit2 : P = (done ++ [p]) ++ rest' := by
        rw [hsplit, List.append_assoc, List.singleton_append]
      exact ih (done ++ [p]) f2 _ entries fsEnd hsplit2 hder2 hinv2 hrun

/-! ## Restore-phase support lemmas -/

theorem restoreLoop_nil (r : Fs) : restoreLoop r [] = r := rfl

theorem restoreLoop_cons (r : Fs) (ent : TrashEntry)
    (rest : List TrashEntry) :
    restoreLoop r (ent :: rest) =
      restoreLoop
        (match r.mkdirAll ent.originalPath.dropLast 0 with
         | Except.error _ => r
         | Except.ok r1 =>
           match r1.rename ent.trashPath ent.originalPath with
           | Except.error _ => r1
           | Except.ok r2 => r2) rest := rfl

theorem RestoreLast_eq (fs : Fs) (baseDir : FPath) :
    RestoreLast fs baseDir =
      match fs.readDir baseDir with
      | Except.error e =>
        (Except.error ("failed to read trash directory: " ++ e), fs)
      | Except.ok entries =>
        if entries.isEmpty then (Except.error "no trash sessions found", fs)
        else
          if latestSession entries = "" then
            (Except.error "no valid trash sessions found", fs)
          else
            match fs.readFile ((baseDir ++ [latestSession entries]) ++
                [manifestName]) with
            | Except.error e =>
              (Except.error ("failed to read manifest for session " ++
                latestSession entries ++ ": " ++ e), fs)
            | Except.ok (Content.bytes _) =>
              (Except.error "failed to parse manifest", fs)
            | Except.ok (Content.manifestData m) =>
              (Except.ok (), (restoreLoop fs m.entries).removeAll
                (baseDir ++ [latestSession entries])) := rfl

theorem mem_initialSegs {q p : FPath} : q ∈ initialSegs p ↔ q <+: p := by
  unfold initialSegs
  constructor
  · intro h
    obtain ⟨n, _, rfl⟩ := List.mem_map.mp h
    exact List.take_prefix n p
  · intro h
    obtain ⟨t, rfl⟩ := h
    refine List.mem_map.mpr ⟨q.length, ?_, List.take_left q t⟩
    rw [List.mem_range, List.length_append]
    omega

theorem mkdirAll_ok_isDir_seg {fs fs' : Fs} {p : FPath} {m : Int}
    (h : fs.mkdirAll p m = .ok fs') (q : FPath) (hq : q <+: p)
    (hne : q ≠ []) : fs'.isDir q = true := by
  by_cases hd : fs.isDir q = true
  · exact mkdirAll_ok_isDir_of h q hd
  · unfold Fs.isDir
    rw [mkdirAll_ok_dirs h, List.any_append, Bool.or_eq_true]
    right
    apply List.any_eq_true.mpr
    refine ⟨⟨q, m⟩, List.mem_map.mpr ⟨q, ?_, rfl⟩, by simp⟩
    rw [List.mem_filter]
    refine ⟨mem_initialSegs.mpr hq, ?_⟩
    simp only [decide_eq_true_eq]
    constructor
    · simpa using hne
    · simpa using hd

theorem mkdirAll_ok_isDir_unchanged {fs fs' : Fs} {p : FPath} {m : Int}
    (h : fs.mkdirAll p m = .ok fs') (q : FPath) (hq : ¬ q <+: p) :
    fs'.isDir q = fs.isDir q := by
  cases hd : fs.isDir q with
  | true => rw [mkdirAll_ok_isDir_of h q hd]
  | false =>
    cases hd' : fs'.isDir q with
    | false => rfl
    | true =>
      rcases mkdirAll_ok_isDir_rev h q hd' with hc | hc
      · rw [hc] at hd
        cases hd
      · exact absurd (mem_initialSegs.mp hc) hq

theorem writeFile_ok_isFile_other {fs fs' : Fs} {p : FPath} {c : Content}
    {m : Int} (h : fs.writeFile p c m = .ok fs') (q : FPath) (hq : q ≠ p) :
    fs'.isFile q = fs.isFile q := by
  rw [isFile_eq_find?, isFile_eq_find?, writeFile_ok_files h,
    find?_append_single_ne _ _ _ (by
      simp only [decide_eq_false_iff_not]
      exact fun hc => hq hc.symm),
    find?_filter_eq _ _ _ (by
      intro a ha
      rw [decide_eq_true_eq] at ha
      simp [ha, hq])]

/-! The session-selection fold. -/

theorem charListLt_iff : ∀ as bs : List Char, charListLt as bs = true ↔ as < bs := by
  intro as
  induction as with
  | nil =>
    intro bs
    cases bs with
    | nil =>
      constructor
      · intro h
        cases h
      · intro h
        cases h
    | cons b bs =>
      constructor
      · intro _
        exact List.Lex.nil
      · intro _
        rfl
  | cons a as ih =>
    intro bs
    cases bs with
    | nil =>
      constructor
      · intro h
        cases h
      · intro h
        cases h
    | cons b bs =>
      show (if a.toNat < b.toNat then true
        else if b.toNat < a.toNat then false else charListLt as bs) = true
        ↔ _
      by_cases h1 : a.toNat < b.toNat
      · rw [if_pos h1]
        constructor
        · intro _
          exact List.Lex.rel h1
        · intro _
          rfl
      · rw [if_neg h1]
        by_cases h2 : b.toNat < a.toNat
        · rw [if_pos h2]
          constructor
          · intro h
            cases h
          · intro h
            cases h with
            | cons h3 => exact absurd h2 (lt_irrefl _)
            | rel hab => exact absurd hab h1
        · rw [if_neg h2]
          have hab : a = b :=
            Char.ext (UInt32.ext (le_antisymm (not_lt.mp h2) (not_lt.mp h1)))
          subst hab
          rw [ih bs]
          constructor
          · intro h
            exact List.Lex.cons h
          · intro h
            cases h with
            | cons h3 => exact h3
            | rel hab2 => exact absurd hab2 h1

theorem strLt_iff {s t : String} : strLt s t = true ↔ s < t := by
  rw [String.lt_iff_toList_lt]
  exact charListLt_iff s.data t.data

theorem latestGo_mono (ents : List DirEntry) :
    ∀ (init : String), init ≤ ents.foldl (fun acc ent =>
      if ent.isDir && strLt acc ent.name then ent.name else acc) init := by
  induction ents with
  | nil => intro init; exact le_refl _
  | cons ent rest ih =>
    intro init
    rw [List.foldl_cons]
    by_cases hc : (ent.isDir && strLt init ent.name) = true
    · rw [if_pos hc]
      refine le_trans ?_ (ih ent.name)
      rw [Bool.and_eq_true] at hc
      exact le_of_lt (strLt_iff.mp hc.2)
    · rw [if_neg hc]
      exact ih init

theorem latestGo_ge_mem (ents : List DirEntry) :
    ∀ (init : String) (ent : DirEntry), ent ∈ ents → ent.isDir = true →
      ent.name ≤ ents.foldl (fun acc ent =>
        if ent.isDir && strLt acc ent.name then ent.name else acc) init := by
  induction ents with
  | nil =>
    intro _ _ hmem
    cases hmem
  | cons hd rest ih =>
    intro init ent hmem hdir
    rw [List.foldl_cons]
    rcases List.mem_cons.mp hmem with rfl | hmem'
    · by_cases hc : (ent.isDir && strLt init ent.name) = true
      · rw [if_pos hc]
        exact latestGo_mono rest ent.name
      · rw [if_neg hc]
        rw [hdir] at hc
        simp only [Bool.true_and] at hc
        exact le_trans (not_lt.mp (fun h => hc (strLt_iff.mpr h)))
          (latestGo_mono rest init)
    · exact ih _ ent hmem' hdir

theorem latestGo_cases (ents : List DirEntry) :
    ∀ (init : String),
      ents.foldl (fun acc ent =>
        if ent.isDir && strLt acc ent.name then ent.name else acc) init = init
      ∨ ∃ ent ∈ ents, ent.isDir = true ∧
          ents.foldl (fun acc ent =>
            if ent.isDir && strLt acc ent.name then ent.name else acc) init
            = ent.name := by
  induction ents with
  | nil => intro init; exact Or.inl rfl
  | cons hd rest ih =>
    intro init
    rw [List.foldl_cons]
    by_cases hc : (hd.isDir && strLt init hd.name) = true
    · rw [if_pos hc]
      rcases ih hd.name with h | ⟨ent, hment, hdir, hfold⟩
      · refine Or.inr ⟨hd, List.mem_cons_self hd rest, ?_, h⟩
        simp only [Bool.and_eq_true] at hc
        exact hc.1
      · exact Or.inr ⟨ent, List.mem_cons_of_mem hd hment, hdir, hfold⟩
    · rw [if_neg hc]
      rcases ih init with h | ⟨ent, hment, hdir, hfold⟩
      · exact Or.inl h
      · exact Or.inr ⟨ent, List.mem_cons_of_mem hd hment, hdir, hfold⟩

theorem str_empty_le (s : String) : "" ≤ s := by
  rw [String.le_iff_toList_le]
  exact List.nil_le

theorem latestSession_eq_of_max {ents : List DirEntry} {ts : String}
    (hmem : DirEntry.mk ts true ∈ ents)
    (hbound : ∀ ent ∈ ents, ent.isDir = true → ent.name ≤ ts) :
    latestSession ents = ts := by
  unfold latestSession
  apply le_antisymm
  · rcases latestGo_cases ents "" with h | ⟨ent, hment, hdir, hfold⟩
    · rw [h]
      exact str_empty_le ts
    · rw [hfold]
      exact hbound ent hment hdir
  · exact latestGo_ge_mem ents "" ⟨ts, true⟩ hmem rfl

/-! ## The restore-phase invariant -/

theorem drop_tpOf (sess p : FPath) :
    (tpOf sess p).drop (sess.length + 1) = [] := by
  rw [← tpOf_length sess p]
  exact List.drop_length _

theorem append_drop_cancel {p q : FPath} (h : p <+: q) :
    p ++ q.drop p.length = q := by
  obtain ⟨t, rfl⟩ := h
  rw [List.drop_left]

theorem drop_tpOf_append (sess p z : FPath) :
    (tpOf sess p ++ z).drop (sess.length + 1) = z := by
  rw [← tpOf_length sess p]
  exact List.drop_left _ _

/-- The state invariant of the restore loop of `RestoreLast`, relative to
the original filesystem `fs`: subtrees already restored read as in `fs`,
subtrees still in the trash read from their slot, subtrees of moved but
unrestored paths are absent, and everything else — except the manifest
file — is untouched. -/
def RInv (fs r : Fs) (sess : FPath) (done rest : List FPath) : Prop :=
  (∀ q p', p' ∈ done → p' <+: q → r.lookupFile q = fs.lookupFile q)
  ∧ (∀ q p', p' ∈ rest → tpOf sess p' <+: q →
      (r.lookupFile q = fs.lookupFile (p' ++ q.drop (sess.length + 1))
       ∧ r.isFile q = fs.isFile (p' ++ q.drop (sess.length + 1))
       ∧ r.isDir q = fs.isDir (p' ++ q.drop (sess.length + 1))))
  ∧ (∀ q p', p' ∈ rest → p' <+: q →
      (r.lookupFile q = none ∧ r.isFile q = false ∧ r.isDir q = false))
  ∧ (∀ q, (∀ p' ∈ done, ¬ p' <+: q) →
      (∀ p' ∈ rest, ¬ tpOf sess p' <+: q ∧ ¬ p' <+: q) →
      q ≠ sess ++ [manifestName] →
      (r.lookupFile q = fs.lookupFile q ∧ r.isFile q = fs.isFile q))

theorem isFile_false_of_no_entry {fs : Fs} {q : FPath}
    (h : ∀ e ∈ fs.files, e.path ≠ q) : fs.isFile q = false := by
  cases hc : fs.isFile q with
  | false => rfl
  | true =>
    unfold Fs.isFile at hc
    obtain ⟨e, he, hpe⟩ := List.any_eq_true.mp hc
    rw [decide_eq_true_eq] at hpe
    exact absurd hpe (h e he)

theorem restoreLoop_ok_inv (fs : Fs) (sess : FPath) (P : List FPath)
    (HS : ∀ p ∈ P, ¬ sess <+: p)
    (HP : List.Pairwise (fun p q => ¬ p <+: q ∧ ¬ q <+: p) P)
    (HBse : List.Pairwise (fun p q => fpBase p ≠ fpBase q) P)
    (Hder : ∀ p ∈ P, ¬ p <+: sess)
    (H4f : ∀ e ∈ fs.files, ¬ sess <+: e.path)
    (H9 : ∀ p ∈ P, ∀ q, q <+: p → q ≠ p → fs.isFile q = false)
    (H0 : ∀ p ∈ P, fs.statOk p = true) :
    ∀ (rest done : List FPath) (r : Fs),
      P = done ++ rest →
      RInv fs r sess done rest →
      RInv fs (restoreLoop r (rest.map (fun p => ⟨p, tpOf sess p⟩)))
        sess P [] := by
  intro rest
  induction rest with
  | nil =>
    intro done r hsplit hinv
    rw [List.map_nil, restoreLoop_nil]
    rw [List.append_nil] at hsplit
    subst hsplit
    exact hinv
  | cons p rest' ih =>
    intro done r hsplit hinv
    have hpP : p ∈ P := by
      rw [hsplit]
      exact List.mem_append_right done (List.mem_cons_self p rest')
    have hsp : ¬ sess <+: p := HS p hpP
    have hpns : ¬ p <+: sess := Hder p hpP
    have hpne : p ≠ [] := by
      intro hc
      exact hpns (hc ▸ List.nil_prefix)
    have hplen : 1 ≤ p.length := by
      cases p with
      | nil => exact absurd rfl hpne
      | cons a t => simp
    have hPsplit : List.Pairwise (fun p q => ¬ p <+: q ∧ ¬ q <+: p)
        (done ++ p :: rest') := hsplit ▸ HP
    have hBsplit : List.Pairwise (fun p q => fpBase p ≠ fpBase q)
        (done ++ p :: rest') := hsplit ▸ HBse
    have hRdone : ∀ p' ∈ done, ¬ p' <+: p ∧ ¬ p <+: p' := by
      intro p' hp'
      exact (List.pairwise_append.mp hPsplit).2.2 p' hp' p
        (List.mem_cons_self p rest')
    have hRrest : ∀ p' ∈ rest', ¬ p <+: p' ∧ ¬ p' <+: p := by
      intro p' hp'
      exact (List.pairwise_cons.mp
        (List.pairwise_append.mp hPsplit).2.1).1 p' hp'
    have hBrest : ∀ p' ∈ rest', fpBase p ≠ fpBase p' := by
      intro p' hp'
      exact (List.pairwise_cons.mp
        (List.pairwise_append.mp hBsplit).2.1).1 p' hp'
    have hdoneP : ∀ p' ∈ done, p' ∈ P := by
      intro p' hp'
      rw [hsplit]
      exact List.mem_append_left _ hp'
    have hrestP : ∀ p' ∈ rest', p' ∈ P := by
      intro p' hp'
      rw [hsplit]
      exact List.mem_append_right _ (List.mem_cons_of_mem p hp')
    -- Step A: the parent-directory creation succeeds.
    have hnofile : ∀ x ∈ initialSegs p.dropLast, r.isFile x = false := by
      intro x hx
      have hxdl : x <+: p.dropLast := mem_initialSegs.mp hx
      have hxp : x <+: p := hxdl.trans (List.dropLast_prefix p)
      have hxlen : x.length ≤ p.length - 1 := by
        have h1 := hxdl.length_le
        rw [List.length_dropLast] at h1
        exact h1
      have hxne : x ≠ p := by
        intro hc
        rw [hc] at hxlen
        omega
      have helse := hinv.2.2.2 x
        (fun p' hp' hc => (hRdone p' hp').1 (hc.trans hxp))
        (fun p' hp' => by
          rcases List.mem_cons.mp hp' with rfl | hp''
          · constructor
            · intro hc
              exact hsp (((sess_prefix_tpOf sess p').trans hc).trans hxp)
            · intro hc
              exact hxne (List.IsPrefix.eq_of_length_le hxp hc.length_le)
          · constructor
            · intro hc
              exact hsp (((sess_prefix_tpOf sess p').trans hc).trans hxp)
            · intro hc
              exact (hRrest p' hp'').2 (hc.trans hxp))
        (by
          intro hc
          have hsx : sess <+: x := by
            rw [hc]
            exact List.prefix_append _ _
          exact hsp (hsx.trans hxp))
      rw [helse.2, H9 p hpP x hxp hxne]
    have hmk : ∃ r1, r.mkdirAll p.dropLast 0 = Except.ok r1 := by
      unfold Fs.mkdirAll
      rw [if_neg (by
        intro hc
        obtain ⟨x, hx, hpx⟩ := List.any_eq_true.mp hc
        rw [hnofile x hx] at hpx
        cases hpx)]
      exact ⟨_, rfl⟩
    obtain ⟨r1, hmk⟩ := hmk
    -- RInv transfers through the directory creation.
    have hinv1 : RInv fs r1 sess done (p :: rest') := by
      refine ⟨?_, ?_, ?_, ?_⟩
      · intro q p' hp' hq
        rw [mkdirAll_ok_lookupFile hmk]
        exact hinv.1 q p' hp' hq
      · intro q p' hp' hq
        have hnd : ¬ q <+: p.dropLast := by
          intro hc
          exact hsp ((((sess_prefix_tpOf sess p').trans hq).trans hc).trans
            (List.dropLast_prefix p))
        have hold := hinv.2.1 q p' hp' hq
        exact ⟨(mkdirAll_ok_lookupFile hmk q).trans hold.1,
          (mkdirAll_ok_isFile hmk q).trans hold.2.1,
          (mkdirAll_ok_isDir_unchanged hmk q hnd).trans hold.2.2⟩
      · intro q p' hp' hq
        have hnd : ¬ q <+: p.dropLast := by
          intro hc
          have hql : q.length ≤ p.length - 1 := by
            have h1 := hc.length_le
            rw [List.length_dropLast] at h1
            exact h1
          rcases List.mem_cons.mp hp' with rfl | hp''
          · have := hq.length_le
            omega
          · exact (hRrest p' hp'').2
              (hq.trans (hc.trans (List.dropLast_prefix p)))
        have hold := hinv.2.2.1 q p' hp' hq
        exact ⟨(mkdirAll_ok_lookupFile hmk q).trans hold.1,
          (mkdirAll_ok_isFile hmk q).trans hold.2.1,
          (mkdirAll_ok_isDir_unchanged hmk q hnd).trans hold.2.2⟩
      · intro q hdone hrest hman
        have hold := hinv.2.2.2 q hdone hrest hman
        exact ⟨(mkdirAll_ok_lookupFile hmk q).trans hold.1,
          (mkdirAll_ok_isFile hmk q).trans hold.2⟩
    -- Step B: the rename back succeeds.
    have hself := hinv1.2.1 (tpOf sess p) p (List.mem_cons_self p rest')
      (List.prefix_refl _)
    rw [drop_tpOf, List.append_nil] at hself
    have hstat : r1.statOk (tpOf sess p) = true := by
      unfold Fs.statOk
      rw [hself.2.1, hself.2.2]
      exact H0 p hpP
    have hdstF : r1.isFile p = false :=
      (hinv1.2.2.1 p p (List.mem_cons_self p rest')
        (List.prefix_refl p)).2.1
    have hdstD : r1.isDir p = false :=
      (hinv1.2.2.1 p p (List.mem_cons_self p rest')
        (List.prefix_refl p)).2.2
    have hne2 : tpOf sess p ≠ p := by
      intro hc
      exact hsp (hc ▸ sess_prefix_tpOf sess p)
    have hnpd : ¬ tpOf sess p <+: p := by
      intro hc
      exact hsp ((sess_prefix_tpOf sess p).trans hc)
    have hdirex : r1.dirExists p.dropLast = true := by
      unfold Fs.dirExists
      by_cases hd0 : p.dropLast = []
      · rw [hd0]
        rfl
      · rw [mkdirAll_ok_isDir_self hmk hd0, Bool.or_true]
    have hren : ∃ r2, r1.rename (tpOf sess p) p = Except.ok r2 := by
      unfold Fs.rename
      rw [if_neg hne2, if_neg (not_not_intro hstat),
        if_neg (by
          rw [List.isPrefixOf_iff_prefix]
          exact hnpd),
        if_neg (by rw [hdstD, Bool.and_false]; simp),
        if_neg (by rw [hdstF, Bool.and_false]; simp),
        if_neg (by rw [hdstD, Bool.and_false, Bool.false_and]; simp),
        if_neg (not_not_intro hdirex)]
      exact ⟨_, rfl⟩
    obtain ⟨r2, hren⟩ := hren
    -- the step of `restoreLoop` reduces to `r2`
    have hstep : restoreLoop r
        ((p :: rest').map (fun p => ⟨p, tpOf sess p⟩)) =
        restoreLoop r2 (rest'.map (fun p => ⟨p, tpOf sess p⟩)) := by
      rw [List.map_cons, restoreLoop_cons]
      congr 1
      show (match r.mkdirAll p.dropLast 0 with
        | Except.error _ => r
        | Except.ok r1 =>
          match r1.rename (tpOf sess p) p with
          | Except.error _ => r1
          | Except.ok r2 => r2) = r2
      rw [hmk]
      show (match r1.rename (tpOf sess p) p with
        | Except.error _ => r1
        | Except.ok r2 => r2) = r2
      rw [hren]
    rw [hstep]
    -- zone bookkeeping for the rename back
    have hfreshF2 : ∀ e ∈ r1.files, p <+: e.path → e.path = p := by
      intro e he hpe
      exfalso
      have hxf := isFile_of_mem_files he
      rw [(hinv1.2.2.1 e.path p (List.mem_cons_self p rest') hpe).2.1]
        at hxf
      cases hxf
    have hfreshD2 : ∀ d ∈ r1.dirs, p <+: d.path → d.path = p := by
      intro d hd hpd
      exfalso
      have hxd := isDir_of_mem_dirs hd
      rw [(hinv1.2.2.1 d.path p (List.mem_cons_self p rest') hpd).2.2]
        at hxd
      cases hxd
    have hzone_done : ∀ p' ∈ done, ∀ q : FPath, p' <+: q →
        ¬ tpOf sess p <+: q ∧ ¬ p <+: q := by
      intro p' hp' q hq
      constructor
      · intro hc
        rcases List.prefix_or_prefix_of_prefix hc hq with h | h
        · exact HS p' (hdoneP p' hp') ((sess_prefix_tpOf sess p).trans h)
        · rcases prefix_tpOf_cases h with h | h
          · exact Hder p' (hdoneP p' hp') h
          · exact HS p' (hdoneP p' hp') (h ▸ sess_prefix_tpOf sess p)
      · intro hc
        rcases List.prefix_or_prefix_of_prefix hc hq with h | h
        · exact (hRdone p' hp').2 h
        · exact (hRdone p' hp').1 h
    have hzone_rest_tp : ∀ p' ∈ rest', ∀ q : FPath, tpOf sess p' <+: q →
        ¬ tpOf sess p <+: q ∧ ¬ p <+: q := by
      intro p' hp' q hq
      constructor
      · intro hc
        have heq : tpOf sess p = tpOf sess p' :=
          eq_of_prefix_prefix_length hc hq
            (by rw [tpOf_length, tpOf_length])
        exact tpOf_inj (hBrest p' hp') heq
      · intro hc
        rcases List.prefix_or_prefix_of_prefix hc hq with h | h
        · rcases prefix_tpOf_cases h with h | h
          · exact hpns h
          · exact hsp (by rw [h]; exact sess_prefix_tpOf sess p')
        · exact hsp ((sess_prefix_tpOf sess p').trans h)
    have hzone_rest_orig : ∀ p' ∈ rest', ∀ q : FPath, p' <+: q →
        ¬ tpOf sess p <+: q ∧ ¬ p <+: q := by
      intro p' hp' q hq
      constructor
      · intro hc
        rcases List.prefix_or_prefix_of_prefix hc hq with h | h
        · exact HS p' (hrestP p' hp') ((sess_prefix_tpOf sess p).trans h)
        · rcases prefix_tpOf_cases h with h | h
          · exact Hder p' (hrestP p' hp') h
          · exact HS p' (hrestP p' hp') (h ▸ sess_prefix_tpOf sess p)
      · intro hc
        rcases List.prefix_or_prefix_of_prefix hc hq with h | h
        · exact (hRrest p' hp').1 h
        · exact (hRrest p' hp').2 h
    have hinv2 : RInv fs r2 sess (done ++ [p]) rest' := by
      refine ⟨?_, ?_, ?_, ?_⟩
      · intro q p'' hp'' hq
        rcases List.mem_append.mp hp'' with hmem | hmem
        · have hz := hzone_done p'' hmem q hq
          rw [(rename_all_outside hne2 hren q hz.1 hz.2).1]
          exact hinv1.1 q p'' hmem hq
        · have hpp : p'' = p := List.mem_singleton.mp hmem
          subst hpp
          rw [(rename_all_dstzone hne2 hren q hq hfreshF2 hfreshD2).1]
          have hy := hinv1.2.1 (tpOf sess p'' ++ q.drop p''.length) p''
            (List.mem_cons_self p'' rest') (List.prefix_append _ _)
          rw [drop_tpOf_append] at hy
          rw [hy.1, append_drop_cancel hq]
      · intro q p' hp' hq
        have hz := hzone_rest_tp p' hp' q hq
        have hout := rename_all_outside hne2 hren q hz.1 hz.2
        have hold := hinv1.2.1 q p' (List.mem_cons_of_mem p hp') hq
        exact ⟨hout.1.trans hold.1, hout.2.1.trans hold.2.1,
          hout.2.2.trans hold.2.2⟩
      · intro q p' hp' hq
        have hz := hzone_rest_orig p' hp' q hq
        have hout := rename_all_outside hne2 hren q hz.1 hz.2
        have hold := hinv1.2.2.1 q p' (List.mem_cons_of_mem p hp') hq
        exact ⟨hout.1.trans hold.1, hout.2.1.trans hold.2.1,
          hout.2.2.trans hold.2.2⟩
      · intro q hdone hrest hman
        have hnp : ¬ p <+: q := hdone p
          (List.mem_append_right done (List.mem_singleton.mpr rfl))
        by_cases htz : tpOf sess p <+: q
        · have hsz := rename_all_srczone hne2 hren q htz hnp
          have hsessq : sess <+: q := (sess_prefix_tpOf sess p).trans htz
          have hfsF : fs.isFile q = false := isFile_false_of_no_entry
            (fun e he hc => H4f e he (hc ▸ hsessq))
          have hfsL : fs.lookupFile q = none := isFile_false_lookup hfsF
          rw [hsz.1, hsz.2.1, hfsF, hfsL]
          exact ⟨rfl, rfl⟩
        · have hout := rename_all_outside hne2 hren q htz hnp
          have hold := hinv1.2.2.2 q
            (fun p' hp' => hdone p' (List.mem_append_left _ hp'))
            (fun p' hp' => by
              rcases List.mem_cons.mp hp' with rfl | hp''
              · exact ⟨htz, hnp⟩
              · exact hrest p' hp'')
            hman
          exact ⟨hout.1.trans hold.1, hout.2.1.trans hold.2⟩
    have hsplit2 : P = (done ++ [p]) ++ rest' := by
      rw [hsplit, List.append_assoc, List.singleton_append]
    exact ih (done ++ [p]) r2 hsplit2 hinv2

theorem getLastD_snoc (l : List String) (a d : String) :
    (l ++ [a]).getLastD d = a := by
  rw [List.getLastD_eq_getLast?, List.getLast?_concat]
  rfl

theorem readDir_ok_mem_dir {fs : Fs} {p : FPath} {E : List DirEntry}
    (h : fs.readDir p = .ok E) (a : String)
    (ha : fs.isDir (p ++ [a]) = true) : DirEntry.mk a true ∈ E := by
  unfold Fs.readDir at h
  by_cases hde : fs.dirExists p = true
  · rw [if_neg (not_not_intro hde)] at h
    simp only [Except.ok.injEq] at h
    subst h
    obtain ⟨d, hd, hdp⟩ := List.any_eq_true.mp ha
    rw [decide_eq_true_eq] at hdp
    refine List.mem_append_left _ (List.mem_filterMap.mpr ⟨d, hd, ?_⟩)
    rw [hdp, if_pos (by
      rw [Bool.and_eq_true]
      refine ⟨by rw [decide_eq_true_eq]; simp, ?_⟩
      rw [List.isPrefixOf_iff_prefix]
      exact List.prefix_append _ _), List.getLast?_concat]
    rfl
  · rw [if_pos hde] at h
    cases h

theorem readDir_ok_dir_name {fs : Fs} {p : FPath} {E : List DirEntry}
    (h : fs.readDir p = .ok E) :
    ∀ ent ∈ E, ent.isDir = true → fs.isDir (p ++ [ent.name]) = true := by
  unfold Fs.readDir at h
  by_cases hde : fs.dirExists p = true
  · rw [if_neg (not_not_intro hde)] at h
    simp only [Except.ok.injEq] at h
    subst h
    intro ent hment hdir
    rcases List.mem_append.mp hment with hml | hmr
    · obtain ⟨d, hd, hfd⟩ := List.mem_filterMap.mp hml
      by_cases hc : (decide (d.path.length = p.length + 1) &&
          p.isPrefixOf d.path) = true
      · rw [if_pos hc] at hfd
        obtain ⟨n, hn, hent⟩ := Option.map_eq_some'.mp hfd
        rw [Bool.and_eq_true, decide_eq_true_eq,
          List.isPrefixOf_iff_prefix] at hc
        obtain ⟨t, ht⟩ := hc.2
        have htlen : t.length = 1 := by
          have := hc.1
          rw [← ht, List.length_append] at this
          omega
        obtain ⟨b, rfl⟩ : ∃ b, t = [b] := by
          cases t with
          | nil => cases htlen
          | cons b t2 =>
            cases t2 with
            | nil => exact ⟨b, rfl⟩
            | cons c t3 => simp at htlen
        rw [← ht, List.getLast?_concat, Option.some.injEq] at hn
        have hname : ent.name = n := by rw [← hent]
        rw [hname, ← hn]
        apply List.any_eq_true.mpr
        exact ⟨d, hd, by rw [decide_eq_true_eq, ← ht]⟩
      · rw [if_neg hc] at hfd
        cases hfd
    · obtain ⟨e, _, hfe⟩ := List.mem_filterMap.mp hmr
      by_cases hc : (decide (e.path.length = p.length + 1) &&
          p.isPrefixOf e.path) = true
      · rw [if_pos hc] at hfe
        obtain ⟨n, _, hent⟩ := Option.map_eq_some'.mp hfe
        rw [← hent] at hdir
        cases hdir
      · rw [if_neg hc] at hfe
        cases hfe
  · rw [if_pos hde] at h
    cases h

/-! ## C1: the trash round trip -/

theorem tpOf_ne_manifest {sess p : FPath} (h : fpBase p ≠ manifestName) :
    tpOf sess p ≠ sess ++ [manifestName] := by
  intro hc
  unfold tpOf at hc
  rw [List.append_cancel_left_eq] at hc
  simp only [List.cons.injEq, and_true] at hc
  exact h hc

/-- C1 (amended): the round trip holds under the session-freshness and
disjointness conditions a real invocation satisfies.  `MoveToTrash`
succeeded on `P`; no path lies inside the trash root; the paths are
pairwise non-nested with pairwise distinct basenames, none named
`manifest.json`; the session directory is fresh (nothing in `fs` lies
below it); no ancestor of a path is a regular file; every path exists;
every existing session directory name is at most the new timestamp, which
is non-empty.  Then `RestoreLast` succeeds, restores every path in `P`
with identical contents, and removes the session directory. -/
theorem c1_amended_roundtrip (fs fs3 : Fs) (baseDir : FPath) (ts : String)
    (nowT : Int) (P : List FPath)
    (hmv : MoveToTrash fs baseDir ts nowT P = (Except.ok ts, fs3))
    (HB : ∀ p ∈ P, ¬ baseDir <+: p)
    (HP : List.Pairwise (fun p q => ¬ p <+: q ∧ ¬ q <+: p) P)
    (HBse : List.Pairwise (fun p q => fpBase p ≠ fpBase q) P)
    (Hm : ∀ p ∈ P, fpBase p ≠ manifestName)
    (HF : ∀ e ∈ fs.files, ¬ (baseDir ++ [ts]) <+: e.path)
    (HD : ∀ d ∈ fs.dirs, (baseDir ++ [ts]) <+: d.path →
      d.path = baseDir ++ [ts])
    (H9 : ∀ p ∈ P, ∀ q, q <+: p → q ≠ p → fs.isFile q = false)
    (H0 : ∀ p ∈ P, fs.statOk p = true)
    (Hmax : ∀ d ∈ fs.dirs, baseDir <+: d.path →
      d.path.length = baseDir.length + 1 → d.path.getLastD "" ≤ ts)
    (Hts : ts ≠ "") :
    (RestoreLast fs3 baseDir).1 = Except.ok ()
    ∧ (∀ p ∈ P, ∀ q, p <+: q →
        (RestoreLast fs3 baseDir).2.lookupFile q = fs.lookupFile q)
    ∧ (RestoreLast fs3 baseDir).2.statOk (baseDir ++ [ts]) = false := by
  have HS : ∀ p ∈ P, ¬ (baseDir ++ [ts]) <+: p := by
    intro p hp hc
    exact HB p hp ((List.prefix_append baseDir [ts]).trans hc)
  -- unpack the successful MoveToTrash
  rw [MoveToTrash_eq] at hmv
  cases hmk : fs.mkdirAll (baseDir ++ [ts]) nowT with
  | error e =>
    rw [hmk] at hmv
    exact absurd hmv (by simp)
  | ok g =>
  rw [hmk] at hmv
  dsimp only at hmv
  cases hloop : moveLoop g (baseDir ++ [ts]) P [] with
  | mk res fsEnd =>
  cases res with
  | error e =>
    rw [hloop] at hmv
    exact absurd hmv (by simp)
  | ok entries =>
  rw [hloop] at hmv
  dsimp only at hmv
  cases hw : fsEnd.writeFile ((baseDir ++ [ts]) ++ [manifestName])
      (Content.manifestData ⟨nowT, entries⟩) nowT with
  | error e =>
    rw [hw] at hmv
    exact absurd hmv (by simp)
  | ok fs3' =>
  rw [hw] at hmv
  dsimp only at hmv
  have hfs3 : fs3 = fs3' := (congrArg Prod.snd hmv).symm
  subst hfs3
  -- the move-phase invariant
  have HGf : ∀ e ∈ g.files, ¬ (baseDir ++ [ts]) <+: e.path := by
    intro e he
    rw [mkdirAll_ok_files hmk] at he
    exact HF e he
  have HGd : ∀ d ∈ g.dirs, (baseDir ++ [ts]) <+: d.path →
      d.path = baseDir ++ [ts] := by
    intro d hd hpd
    rw [mkdirAll_ok_dirs hmk] at hd
    rcases List.mem_append.mp hd with hmem | hmem
    · exact HD d hmem hpd
    · obtain ⟨q', hq', rfl⟩ := List.mem_map.mp hmem
      have hq'p : q' <+: baseDir ++ [ts] :=
        mem_initialSegs.mp (List.mem_filter.mp hq').1
      exact (List.IsPrefix.eq_of_length_le hpd hq'p.length_le).symm
  have hminv := moveLoop_ok_inv g (baseDir ++ [ts]) P HS HP HBse HGf HGd
    P [] g [] entries fsEnd rfl
    (fun p' hp' => absurd hp' (List.not_mem_nil p'))
    (MInv_nil g (baseDir ++ [ts])) hloop
  have Hder : ∀ p ∈ P, ¬ p <+: baseDir ++ [ts] := hminv.1
  have MFinal : MInv g fsEnd (baseDir ++ [ts]) P := hminv.2
  have hentries : entries =
      P.map (fun p => ⟨p, (baseDir ++ [ts]) ++ [fpBase p]⟩) := by
    have := moveLoop_ok_entries (baseDir ++ [ts]) P g fsEnd [] entries hloop
    simpa using this
  -- zone-freeness of generic outside points
  have hfreeP_tp_len : ∀ p' ∈ P, ∀ x : FPath,
      x.length ≤ baseDir.length + 1 → ¬ tpOf (baseDir ++ [ts]) p' <+: x := by
    intro p' _ x hlen hc
    have := hc.length_le
    rw [tpOf_length, List.length_append] at this
    simp at this
    omega
  -- the bridge from g to fs
  have hgL : ∀ q, g.lookupFile q = fs.lookupFile q :=
    mkdirAll_ok_lookupFile hmk
  have hgF : ∀ q, g.isFile q = fs.isFile q := mkdirAll_ok_isFile hmk
  -- RInv holds on entry to the restore loop
  have hrinv0 : RInv fs fs3 (baseDir ++ [ts]) [] P := by
    refine ⟨?_, ?_, ?_, ?_⟩
    · intro q p' hp'
      exact absurd hp' (List.not_mem_nil p')
    · intro q p' hp' hq
      have hqman : q ≠ (baseDir ++ [ts]) ++ [manifestName] := by
        intro hc
        have hlenq : q.length = baseDir.length + 2 := by
          rw [hc]
          simp
        have heq : tpOf (baseDir ++ [ts]) p' = q := by
          apply List.IsPrefix.eq_of_length_le hq
          rw [tpOf_length, List.length_append, hlenq]
          simp
        exact tpOf_ne_manifest (Hm p' hp') (heq.trans hc)
      have hmf := MFinal.1 q p' hp' hq
      have hdirbridge : g.isDir (p' ++ q.drop (baseDir.length + 1 + 1)) =
          fs.isDir (p' ++ q.drop (baseDir.length + 1 + 1)) := by
        apply mkdirAll_ok_isDir_unchanged hmk
        intro hc
        exact Hder p' hp' ((List.prefix_append p' _).trans hc)
      have hlen_sess : (baseDir ++ [ts]).length = baseDir.length + 1 := by
        simp
      rw [hlen_sess] at hmf
      refine ⟨?_, ?_, ?_⟩
      · rw [writeFile_ok_lookup_other hw q hqman, hmf.1, hlen_sess, hgL]
      · rw [writeFile_ok_isFile_other hw q hqman, hmf.2.1, hlen_sess, hgF]
      · rw [writeFile_ok_isDir hw q, hmf.2.2, hlen_sess, hdirbridge]
    · intro q p' hp' hq
      have hqman : q ≠ (baseDir ++ [ts]) ++ [manifestName] := by
        intro hc
        rw [hc] at hq
        rcases List.prefix_concat_iff.mp hq with h | h
        · exact HS p' hp' (by rw [h]; exact List.prefix_append _ _)
        · exact Hder p' hp' h
      have hmf := MFinal.2.1 q p' hp' hq
      exact ⟨(writeFile_ok_lookup_other hw q hqman).trans hmf.1,
        (writeFile_ok_isFile_other hw q hqman).trans hmf.2.1,
        (writeFile_ok_isDir hw q).trans hmf.2.2⟩
    · intro q _ hrest hman
      have hmf := MFinal.2.2 q hrest
      exact ⟨(writeFile_ok_lookup_other hw q hman).trans (hmf.1.trans
        (hgL q)),
        (writeFile_ok_isFile_other hw q hman).trans (hmf.2.1.trans (hgF q))⟩
  have hrfinal := restoreLoop_ok_inv fs (baseDir ++ [ts]) P HS HP HBse Hder
    HF H9 H0 P [] fs3 rfl hrinv0
  -- RestoreLast selects the fresh session
  have hsessne : baseDir ++ [ts] ≠ [] := by simp
  have hsess_zone_free : ∀ p' ∈ P,
      ¬ tpOf (baseDir ++ [ts]) p' <+: baseDir ++ [ts]
      ∧ ¬ p' <+: baseDir ++ [ts] := by
    intro p' hp'
    exact ⟨hfreeP_tp_len p' hp' _ (by simp), Hder p' hp'⟩
  have hsess3 : fs3.isDir (baseDir ++ [ts]) = true := by
    rw [writeFile_ok_isDir hw, (MFinal.2.2 _ hsess_zone_free).2.2]
    exact mkdirAll_ok_isDir_self hmk hsessne
  have hdirBase : fs3.dirExists baseDir = true := by
    unfold Fs.dirExists
    by_cases hb0 : baseDir = []
    · rw [hb0]
      rfl
    · have hzf : ∀ p' ∈ P, ¬ tpOf (baseDir ++ [ts]) p' <+: baseDir
          ∧ ¬ p' <+: baseDir := by
        intro p' hp'
        refine ⟨hfreeP_tp_len p' hp' _ (by simp), ?_⟩
        intro hc
        exact Hder p' hp' (hc.trans (List.prefix_append baseDir [ts]))
      rw [writeFile_ok_isDir hw, (MFinal.2.2 _ hzf).2.2,
        mkdirAll_ok_isDir_seg hmk baseDir (List.prefix_append baseDir [ts])
          hb0, Bool.or_true]
  -- the directory listing of the trash root selects the fresh session
  cases hrd : fs3.readDir baseDir with
  | error e =>
    unfold Fs.readDir at hrd
    rw [if_neg (not_not_intro hdirBase)] at hrd
    cases hrd
  | ok E =>
  have hmemE : DirEntry.mk ts true ∈ E := readDir_ok_mem_dir hrd ts hsess3
  have hboundE : ∀ ent ∈ E, ent.isDir = true → ent.name ≤ ts := by
    intro ent hment hdir
    have hdir3 := readDir_ok_dir_name hrd ent hment hdir
    have hzf : ∀ p' ∈ P,
        ¬ tpOf (baseDir ++ [ts]) p' <+: baseDir ++ [ent.name]
        ∧ ¬ p' <+: baseDir ++ [ent.name] := by
      intro p' hp'
      refine ⟨hfreeP_tp_len p' hp' _ (by simp), ?_⟩
      intro hc
      rcases List.prefix_concat_iff.mp hc with h | h
      · exact HB p' hp' (by rw [h]; exact List.prefix_append _ _)
      · exact Hder p' hp' (h.trans (List.prefix_append baseDir [ts]))
    have hgd : g.isDir (baseDir ++ [ent.name]) = true := by
      rw [← (MFinal.2.2 _ hzf).2.2, ← writeFile_ok_isDir hw]
      exact hdir3
    rcases mkdirAll_ok_isDir_rev hmk _ hgd with hfsd | hseg
    · obtain ⟨d, hd, hdp⟩ := List.any_eq_true.mp hfsd
      rw [decide_eq_true_eq] at hdp
      have := Hmax d hd (by rw [hdp]; exact List.prefix_append _ _)
        (by rw [hdp]; simp)
      rw [hdp, getLastD_snoc] at this
      exact this
    · have hxp : baseDir ++ [ent.name] <+: baseDir ++ [ts] :=
        mem_initialSegs.mp hseg
      have hx : baseDir ++ [ent.name] = baseDir ++ [ts] :=
        List.IsPrefix.eq_of_length_le hxp (by simp)
      have hnt : ent.name = ts := by
        have := List.append_cancel_left hx
        simpa using this
      rw [hnt]
  have hlat : latestSession E = ts := latestSession_eq_of_max hmemE hboundE
  have hman : fs3.readFile ((baseDir ++ [ts]) ++ [manifestName]) =
      Except.ok (Content.manifestData ⟨nowT, entries⟩) := by
    unfold Fs.readFile
    rw [writeFile_ok_lookup_self hw]
  have hRL : RestoreLast fs3 baseDir = (Except.ok (),
      (restoreLoop fs3 entries).removeAll (baseDir ++ [ts])) := by
    rw [RestoreLast_eq, hrd]
    dsimp only
    rw [if_neg (by
      rw [List.isEmpty_iff]
      exact List.ne_nil_of_mem hmemE)]
    rw [hlat, if_neg Hts, hman]
  refine ⟨?_, ?_, ?_⟩
  · rw [hRL]
  · intro p hp q hq
    rw [hRL]
    dsimp only
    rw [removeAll_lookupFile, if_neg (by
      intro hc
      rcases List.prefix_or_prefix_of_prefix hq hc with h | h
      · exact Hder p hp h
      · exact HS p hp h)]
    rw [hentries]
    exact hrfinal.1 q p hp hq
  · rw [hRL]
    dsimp only
    unfold Fs.statOk
    rw [removeAll_isFile, removeAll_isDir, if_pos (List.prefix_refl _),
      if_pos (List.prefix_refl _)]
    rfl

/-- A filesystem with two files of the same basename in different parents:
the counterexample input for the unconditional round-trip claim. -/
def c1fs : Fs :=
  ⟨[⟨["a", "x"], Content.bytes [1], 0⟩, ⟨["b", "x"], Content.bytes [2], 0⟩],
   [⟨["a"], 0⟩, ⟨["b"], 0⟩]⟩

/-- C1 (counterexample): with two trashed paths sharing the basename `x`,
`MoveToTrash` and `RestoreLast` both report success, yet afterwards
`a/x` holds the bytes originally at `b/x` and `b/x` is gone: the
round trip does not restore every path, because both paths were renamed
to the same slot `sessionDir/x` and the second rename overwrote the
first. -/
theorem c1_counterexample :
    (MoveToTrash c1fs ["t"] "s" 0 [["a", "x"], ["b", "x"]]).1 =
      Except.ok "s"
    ∧ (RestoreLast (MoveToTrash c1fs ["t"] "s" 0
        [["a", "x"], ["b", "x"]]).2 ["t"]).1 = Except.ok ()
    ∧ c1fs.lookupFile ["a", "x"] = some (Content.bytes [1])
    ∧ c1fs.lookupFile ["b", "x"] = some (Content.bytes [2])
    ∧ (RestoreLast (MoveToTrash c1fs ["t"] "s" 0
        [["a", "x"], ["b", "x"]]).2 ["t"]).2.lookupFile ["a", "x"] =
        some (Content.bytes [2])
    ∧ (RestoreLast (MoveToTrash c1fs ["t"] "s" 0
        [["a", "x"], ["b", "x"]]).2 ["t"]).2.lookupFile ["b", "x"] =
        none :=
  ⟨by rfl, by rfl, by rfl, by rfl, by rfl, by rfl⟩

/-- Distinct-basename fixture for the amended round-trip witness. -/
def c1fsW : Fs :=
  ⟨[⟨["xa"], Content.bytes [1], 0⟩, ⟨["yb"], Content.bytes [2], 0⟩], []⟩

theorem c1_amended_witness :
    (RestoreLast (MoveToTrash c1fsW ["t"] "s" 0 [["xa"], ["yb"]]).2
      ["t"]).1 = Except.ok ()
    ∧ (RestoreLast (MoveToTrash c1fsW ["t"] "s" 0 [["xa"], ["yb"]]).2
        ["t"]).2.lookupFile ["xa"] = c1fsW.lookupFile ["xa"]
    ∧ (RestoreLast (MoveToTrash c1fsW ["t"] "s" 0 [["xa"], ["yb"]]).2
        ["t"]).2.lookupFile ["yb"] = c1fsW.lookupFile ["yb"]
    ∧ (RestoreLast (MoveToTrash c1fsW ["t"] "s" 0 [["xa"], ["yb"]]).2
        ["t"]).2.statOk (["t"] ++ ["s"]) = false := by
  have h := c1_amended_roundtrip c1fsW
    (MoveToTrash c1fsW ["t"] "s" 0 [["xa"], ["yb"]]).2 ["t"] "s" 0
    [["xa"], ["yb"]] rfl (by decide) (by decide) (by decide) (by decide)
    (by decide) (by decide)
    (by
      intro p hp q hq hne
      rw [← List.mem_inits] at hq
      fin_cases hp <;> fin_cases hq <;>
        first | rfl | exact absurd rfl hne)
    (by decide) (by decide) (by decide)
  exact ⟨h.1, h.2.1 ["xa"] (by decide) ["xa"] (List.prefix_refl _),
    h.2.1 ["yb"] (by decide) ["yb"] (List.prefix_refl _), h.2.2⟩

/-! ## C10: a failed move leaves a session without a manifest -/

/-- C10: when `MoveToTrash` fails partway through its list, the call
returns the partial state `fsPre` in which the session directory exists
and the already-moved paths read from their trash slots, but the manifest
path holds nothing; a later `RestoreLast` over the same trash root — which
selects this session, it being lexicographically greatest — fails with a
manifest-read error and returns the filesystem unchanged. -/
theorem c10_failed_move_no_manifest (fs g fsPre : Fs) (baseDir : FPath)
    (ts : String) (nowT : Int) (pre post : List FPath) (bad : FPath)
    (entries : List TrashEntry) (e : String)
    (hmk : fs.mkdirAll (baseDir ++ [ts]) nowT = .ok g)
    (hpre : moveLoop g (baseDir ++ [ts]) pre [] = (.ok entries, fsPre))
    (hbad : fsPre.rename bad ((baseDir ++ [ts]) ++ [fpBase bad]) =
      .error e)
    (HB : ∀ p ∈ pre, ¬ baseDir <+: p)
    (HP : List.Pairwise (fun p q => ¬ p <+: q ∧ ¬ q <+: p) pre)
    (HBse : List.Pairwise (fun p q => fpBase p ≠ fpBase q) pre)
    (Hm : ∀ p ∈ pre, fpBase p ≠ manifestName)
    (HF : ∀ f ∈ fs.files, ¬ (baseDir ++ [ts]) <+: f.path)
    (HD : ∀ d ∈ fs.dirs, (baseDir ++ [ts]) <+: d.path →
      d.path = baseDir ++ [ts])
    (Hmax : ∀ d ∈ fs.dirs, baseDir <+: d.path →
      d.path.length = baseDir.length + 1 → d.path.getLastD "" ≤ ts)
    (Hts : ts ≠ "") :
    MoveToTrash fs baseDir ts nowT (pre ++ bad :: post) =
      (.error ("failed to move to trash: " ++ e), fsPre)
    ∧ fsPre.statOk ((baseDir ++ [ts]) ++ [manifestName]) = false
    ∧ fsPre.isDir (baseDir ++ [ts]) = true
    ∧ (∀ p ∈ pre, ∀ q, tpOf (baseDir ++ [ts]) p <+: q →
        fsPre.lookupFile q =
          fs.lookupFile (p ++ q.drop ((baseDir ++ [ts]).length + 1)))
    ∧ RestoreLast fsPre baseDir =
        (.error ("failed to read manifest for session " ++ ts ++ ": " ++
          "no such file or directory"), fsPre) := by
  have HS : ∀ p ∈ pre, ¬ (baseDir ++ [ts]) <+: p := fun p hp hc =>
    HB p hp ((List.prefix_append baseDir [ts]).trans hc)
  have HGf : ∀ f ∈ g.files, ¬ (baseDir ++ [ts]) <+: f.path := by
    intro f hf
    rw [mkdirAll_ok_files hmk] at hf
    exact HF f hf
  have HGd : ∀ d ∈ g.dirs, (baseDir ++ [ts]) <+: d.path →
      d.path = baseDir ++ [ts] := by
    intro d hd hpd
    rw [mkdirAll_ok_dirs hmk] at hd
    rcases List.mem_append.mp hd with hmem | hmem
    · exact HD d hmem hpd
    · obtain ⟨q', hq', rfl⟩ := List.mem_map.mp hmem
      have hq'p : q' <+: baseDir ++ [ts] :=
        mem_initialSegs.mp (List.mem_filter.mp hq').1
      exact (List.IsPrefix.eq_of_length_le hpd hq'p.length_le).symm
  have hminv := moveLoop_ok_inv g (baseDir ++ [ts]) pre HS HP HBse HGf HGd
    pre [] g [] entries fsPre rfl
    (fun p' hp' => absurd hp' (List.not_mem_nil p'))
    (MInv_nil g (baseDir ++ [ts])) hpre
  have Hder : ∀ p ∈ pre, ¬ p <+: baseDir ++ [ts] := hminv.1
  have MFinal : MInv g fsPre (baseDir ++ [ts]) pre := hminv.2
  have hfree_len : ∀ p' ∈ pre, ∀ x : FPath,
      x.length ≤ baseDir.length + 1 →
      ¬ tpOf (baseDir ++ [ts]) p' <+: x := by
    intro p' _ x hlen hc
    have := hc.length_le
    rw [tpOf_length, List.length_append] at this
    simp at this
    omega
  have hgL : ∀ q, g.lookupFile q = fs.lookupFile q :=
    mkdirAll_ok_lookupFile hmk
  have hmanfree : ∀ p' ∈ pre,
      ¬ tpOf (baseDir ++ [ts]) p' <+: (baseDir ++ [ts]) ++ [manifestName]
      ∧ ¬ p' <+: (baseDir ++ [ts]) ++ [manifestName] := by
    intro p' hp'
    constructor
    · intro hc
      have heq : tpOf (baseDir ++ [ts]) p' =
          (baseDir ++ [ts]) ++ [manifestName] := by
        apply List.IsPrefix.eq_of_length_le hc
        rw [tpOf_length]
        simp
      exact tpOf_ne_manifest (Hm p' hp') heq
    · intro hc
      rcases List.prefix_concat_iff.mp hc with h | h
      · exact HS p' hp' (by rw [h]; exact List.prefix_append _ _)
      · exact Hder p' hp' h
  have hmanAll := MFinal.2.2 _ hmanfree
  have hfsF : fs.isFile ((baseDir ++ [ts]) ++ [manifestName]) = false := by
    apply isFile_false_of_no_entry
    intro f hf hc
    exact HF f hf (by rw [hc]; exact List.prefix_append _ _)
  have hgD : g.isDir ((baseDir ++ [ts]) ++ [manifestName]) = false := by
    cases hc : g.isDir ((baseDir ++ [ts]) ++ [manifestName]) with
    | false => rfl
    | true =>
      rcases mkdirAll_ok_isDir_rev hmk _ hc with hfsd | hseg
      · obtain ⟨d, hd, hdp⟩ := List.any_eq_true.mp hfsd
        rw [decide_eq_true_eq] at hdp
        have hds := HD d hd (by rw [hdp]; exact List.prefix_append _ _)
        rw [hdp] at hds
        have hlen := congrArg List.length hds
        simp at hlen
      · have := (mem_initialSegs.mp hseg).length_le
        simp at this
  have hgF : g.isFile ((baseDir ++ [ts]) ++ [manifestName]) = false := by
    rw [mkdirAll_ok_isFile hmk]
    exact hfsF
  have hnoman : fsPre.statOk ((baseDir ++ [ts]) ++ [manifestName])
      = false := by
    unfold Fs.statOk
    rw [hmanAll.2.1, hgF, hmanAll.2.2, hgD]
    rfl
  have hsessfree : ∀ p' ∈ pre,
      ¬ tpOf (baseDir ++ [ts]) p' <+: baseDir ++ [ts]
      ∧ ¬ p' <+: baseDir ++ [ts] := by
    intro p' hp'
    exact ⟨hfree_len p' hp' _ (by simp), Hder p' hp'⟩
  have hsessPre : fsPre.isDir (baseDir ++ [ts]) = true := by
    rw [(MFinal.2.2 _ hsessfree).2.2]
    exact mkdirAll_ok_isDir_self hmk (by simp)
  have hslots : ∀ p ∈ pre, ∀ q, tpOf (baseDir ++ [ts]) p <+: q →
      fsPre.lookupFile q =
        fs.lookupFile (p ++ q.drop ((baseDir ++ [ts]).length + 1)) := by
    intro p hp q hq
    rw [(MFinal.1 q p hp hq).1, hgL]
  have hdirBase : fsPre.dirExists baseDir = true := by
    unfold Fs.dirExists
    by_cases hb0 : baseDir = []
    · rw [hb0]
      rfl
    · have hzf : ∀ p' ∈ pre, ¬ tpOf (baseDir ++ [ts]) p' <+: baseDir
          ∧ ¬ p' <+: baseDir := by
        intro p' hp'
        refine ⟨hfree_len p' hp' _ (by simp), ?_⟩
        intro hc
        exact Hder p' hp' (hc.trans (List.prefix_append baseDir [ts]))
      rw [(MFinal.2.2 _ hzf).2.2,
        mkdirAll_ok_isDir_seg hmk baseDir (List.prefix_append baseDir [ts])
          hb0, Bool.or_true]
  cases hrd : fsPre.readDir baseDir with
  | error e2 =>
    unfold Fs.readDir at hrd
    rw [if_neg (not_not_intro hdirBase)] at hrd
    cases hrd
  | ok E =>
  have hmemE : DirEntry.mk ts true ∈ E := readDir_ok_mem_dir hrd ts hsessPre
  have hboundE : ∀ ent ∈ E, ent.isDir = true → ent.name ≤ ts := by
    intro ent hment hdir
    have hdir3 := readDir_ok_dir_name hrd ent hment hdir
    have hzf : ∀ p' ∈ pre,
        ¬ tpOf (baseDir ++ [ts]) p' <+: baseDir ++ [ent.name]
        ∧ ¬ p' <+: baseDir ++ [ent.name] := by
      intro p' hp'
      refine ⟨hfree_len p' hp' _ (by simp), ?_⟩
      intro hc
      rcases List.prefix_concat_iff.mp hc with h | h
      · exact HB p' hp' (by rw [h]; exact List.prefix_append _ _)
      · exact Hder p' hp' (h.trans (List.prefix_append baseDir [ts]))
    have hgd : g.isDir (baseDir ++ [ent.name]) = true := by
      rw [← (MFinal.2.2 _ hzf).2.2]
      exact hdir3
    rcases mkdirAll_ok_isDir_rev hmk _ hgd with hfsd | hseg
    · obtain ⟨d, hd, hdp⟩ := List.any_eq_true.mp hfsd
      rw [decide_eq_true_eq] at hdp
      have := Hmax d hd (by rw [hdp]; exact List.prefix_append _ _)
        (by rw [hdp]; simp)
      rw [hdp, getLastD_snoc] at this
      exact this
    · have hxp : baseDir ++ [ent.name] <+: baseDir ++ [ts] :=
        mem_initialSegs.mp hseg
      have hx : baseDir ++ [ent.name] = baseDir ++ [ts] :=
        List.IsPrefix.eq_of_length_le hxp (by simp)
      have hnt : ent.name = ts := by
        have := List.append_cancel_left hx
        simpa using this
      rw [hnt]
  have hlat : latestSession E = ts := latestSession_eq_of_max hmemE hboundE
  have hnone : fsPre.lookupFile ((baseDir ++ [ts]) ++ [manifestName])
      = none := by
    rw [hmanAll.1, hgL]
    exact isFile_false_lookup hfsF
  have hmanabs : fsPre.readFile ((baseDir ++ [ts]) ++ [manifestName]) =
      Except.error "no such file or directory" := by
    unfold Fs.readFile
    rw [hnone]
  refine ⟨?_, hnoman, hsessPre, hslots, ?_⟩
  · rw [MoveToTrash_eq, hmk]
    show (match moveLoop g (baseDir ++ [ts]) (pre ++ bad :: post) [] with
      | (Except.error e, fs2) => (Except.error e, fs2)
      | (Except.ok entries, fs2) =>
        match fs2.writeFile ((baseDir ++ [ts]) ++ [manifestName])
            (Content.manifestData ⟨nowT, entries⟩) nowT with
        | Except.error e =>
          (Except.error ("failed to write manifest: " ++ e), fs2)
        | Except.ok fs3 => (Except.ok ts, fs3)) = _
    rw [moveLoop_append, hpre]
    show (match moveLoop fsPre (baseDir ++ [ts]) (bad :: post) entries with
      | (Except.error e, fs2) => (Except.error e, fs2)
      | (Except.ok entries, fs2) =>
        match fs2.writeFile ((baseDir ++ [ts]) ++ [manifestName])
            (Content.manifestData ⟨nowT, entries⟩) nowT with
        | Except.error e =>
          (Except.error ("failed to write manifest: " ++ e), fs2)
        | Except.ok fs3 => (Except.ok ts, fs3)) = _
    rw [moveLoop_cons, hbad]
  · rw [RestoreLast_eq, hrd]
    dsimp only
    rw [if_neg (by
      rw [List.isEmpty_iff]
      exact List.ne_nil_of_mem hmemE)]
    rw [hlat, if_neg Hts, hmanabs]

theorem c10_witness :
    c6fsPre.statOk ((["tr"] ++ ["s1"]) ++ [manifestName]) = false
    ∧ c6fsPre.isDir (["tr"] ++ ["s1"]) = true
    ∧ RestoreLast c6fsPre ["tr"] =
        (.error ("failed to read manifest for session " ++ "s1" ++ ": " ++
          "no such file or directory"), c6fsPre) := by
  have h := c10_failed_move_no_manifest c6fs c6fs1 c6fsPre ["tr"] "s1" 7
    [["a", "x"]] [["a", "y"]] ["a", "missing"]
    [⟨["a", "x"], ["tr", "s1", "x"]⟩] "no such file or directory"
    rfl rfl rfl (by decide) (by decide) (by decide) (by decide) (by decide)
    (by decide) (by decide) (by decide)
  exact ⟨h.2.1, h.2.2.1, h.2.2.2.2⟩

/-! ## C7: the semantics of RestoreLast -/

/-- C7: `RestoreLast` selects the lexicographically greatest directory
name among the trash root's entries; when the manifest parses it replays
the whole entry list — the loop is a fold over all entries, and a failing
`MkdirAll` or rename for one entry keeps that entry's state and continues
with the rest — then removes the session directory unconditionally; it
fails exactly when listing the trash root fails, the listing is empty, no
directory name beats `""`, or the manifest cannot be read or parsed, and
on failure the filesystem is returned unchanged. -/
theorem c7_restore_last_semantics (fs : Fs) (baseDir : FPath) :
    (∀ E, fs.readDir baseDir = .ok E → E ≠ [] →
      latestSession E ≠ "" →
      ((∀ ent ∈ E, ent.isDir = true → ent.name ≤ latestSession E)
       ∧ (∃ ent ∈ E, ent.isDir = true ∧ latestSession E = ent.name)
       ∧ ∀ m, fs.readFile ((baseDir ++ [latestSession E]) ++
             [manifestName]) = .ok (.manifestData m) →
         (RestoreLast fs baseDir =
           (.ok (), (restoreLoop fs m.entries).removeAll
             (baseDir ++ [latestSession E]))
          ∧ ∀ q, (baseDir ++ [latestSession E]) <+: q →
             (RestoreLast fs baseDir).2.statOk q = false)))
    ∧ ((∃ e, (RestoreLast fs baseDir).1 = .error e) ↔
        ((∃ e, fs.readDir baseDir = .error e)
         ∨ (∃ E, fs.readDir baseDir = .ok E ∧
             (E = [] ∨ latestSession E = ""))
         ∨ (∃ E, fs.readDir baseDir = .ok E ∧ E ≠ [] ∧
             latestSession E ≠ ""
             ∧ ((∃ e, fs.readFile ((baseDir ++ [latestSession E]) ++
                  [manifestName]) = .error e)
                ∨ (∃ bs, fs.readFile ((baseDir ++ [latestSession E]) ++
                  [manifestName]) = .ok (.bytes bs))))))
    ∧ ((∃ e, (RestoreLast fs baseDir).1 = .error e) →
        (RestoreLast fs baseDir).2 = fs)
    ∧ (∀ (r : Fs) (es₁ es₂ : List TrashEntry),
        restoreLoop r (es₁ ++ es₂) = restoreLoop (restoreLoop r es₁) es₂)
    ∧ (∀ (r : Fs) (ent : TrashEntry) (rest : List TrashEntry) (e : String),
        r.mkdirAll ent.originalPath.dropLast 0 = .error e →
        restoreLoop r (ent :: rest) = restoreLoop r rest)
    ∧ (∀ (r r1 : Fs) (ent : TrashEntry) (rest : List TrashEntry)
        (e : String),
        r.mkdirAll ent.originalPath.dropLast 0 = .ok r1 →
        r1.rename ent.trashPath ent.originalPath = .error e →
        restoreLoop r (ent :: rest) = restoreLoop r1 rest) := by
  have hmain : ((∃ e, (RestoreLast fs baseDir).1 = .error e) ↔
        ((∃ e, fs.readDir baseDir = .error e)
         ∨ (∃ E, fs.readDir baseDir = .ok E ∧
             (E = [] ∨ latestSession E = ""))
         ∨ (∃ E, fs.readDir baseDir = .ok E ∧ E ≠ [] ∧
             latestSession E ≠ ""
             ∧ ((∃ e, fs.readFile ((baseDir ++ [latestSession E]) ++
                  [manifestName]) = .error e)
                ∨ (∃ bs, fs.readFile ((baseDir ++ [latestSession E]) ++
                  [manifestName]) = .ok (.bytes bs))))))
      ∧ ((∃ e, (RestoreLast fs baseDir).1 = .error e) →
        (RestoreLast fs baseDir).2 = fs) := by
    cases hrd : fs.readDir baseDir with
    | error e2 =>
      have hRL : RestoreLast fs baseDir =
          (.error ("failed to read trash directory: " ++ e2), fs) := by
        rw [RestoreLast_eq, hrd]
      refine ⟨⟨fun _ => Or.inl ⟨e2, rfl⟩, fun _ => ⟨_, by rw [hRL]⟩⟩, ?_⟩
      intro _
      rw [hRL]
    | ok E =>
      by_cases hE : E = []
      · subst hE
        have hRL : RestoreLast fs baseDir =
            (.error "no trash sessions found", fs) := by
          rw [RestoreLast_eq, hrd]
          dsimp only
          rw [if_pos (show ([] : List DirEntry).isEmpty = true from rfl)]
        refine ⟨⟨fun _ => Or.inr (Or.inl ⟨[], rfl, Or.inl rfl⟩),
          fun _ => ⟨_, by rw [hRL]⟩⟩, ?_⟩
        intro _
        rw [hRL]
      · by_cases hl : latestSession E = ""
        · have hRL : RestoreLast fs baseDir =
              (.error "no valid trash sessions found", fs) := by
            rw [RestoreLast_eq, hrd]
            dsimp only
            rw [if_neg (by rw [List.isEmpty_iff]; exact hE), if_pos hl]
          refine ⟨⟨fun _ => Or.inr (Or.inl ⟨E, rfl, Or.inr hl⟩),
            fun _ => ⟨_, by rw [hRL]⟩⟩, ?_⟩
          intro _
          rw [hRL]
        · cases hman : fs.readFile ((baseDir ++ [latestSession E]) ++
              [manifestName]) with
          | error e3 =>
            have hRL : RestoreLast fs baseDir =
                (.error ("failed to read manifest for session " ++
                  latestSession E ++ ": " ++ e3), fs) := by
              rw [RestoreLast_eq, hrd]
              dsimp only
              rw [if_neg (by rw [List.isEmpty_iff]; exact hE), if_neg hl,
                hman]
            refine ⟨⟨fun _ => Or.inr (Or.inr ⟨E, rfl, hE, hl,
              Or.inl ⟨e3, hman⟩⟩), fun _ => ⟨_, by rw [hRL]⟩⟩, ?_⟩
            intro _
            rw [hRL]
          | ok c =>
            cases c with
            | bytes bs =>
              have hRL : RestoreLast fs baseDir =
                  (.error "failed to parse manifest", fs) := by
                rw [RestoreLast_eq, hrd]
                dsimp only
                rw [if_neg (by rw [List.isEmpty_iff]; exact hE), if_neg hl,
                  hman]
              refine ⟨⟨fun _ => Or.inr (Or.inr ⟨E, rfl, hE, hl,
                Or.inr ⟨bs, hman⟩⟩), fun _ => ⟨_, by rw [hRL]⟩⟩, ?_⟩
              intro _
              rw [hRL]
            | manifestData m =>
              have hRL : RestoreLast fs baseDir = (.ok (),
                  (restoreLoop fs m.entries).removeAll
                    (baseDir ++ [latestSession E])) := by
                rw [RestoreLast_eq, hrd]
                dsimp only
                rw [if_neg (by rw [List.isEmpty_iff]; exact hE), if_neg hl,
                  hman]
              constructor
              · constructor
                · rintro ⟨e, he⟩
                  rw [hRL] at he
                  exact absurd he (by simp)
                · rintro (⟨e, h⟩ | ⟨E2, h, hor⟩ | ⟨E2, h, hE2, hl2, hor⟩)
                  · cases h
                  · simp only [Except.ok.injEq] at h
                    subst h
                    rcases hor with h2 | h2
                    · exact absurd h2 hE
                    · exact absurd h2 hl
                  · simp only [Except.ok.injEq] at h
                    subst h
                    rcases hor with ⟨e, h2⟩ | ⟨bs, h2⟩
                    · rw [hman] at h2
                      cases h2
                    · rw [hman] at h2
                      exact absurd h2 (by simp)
              · rintro ⟨e, he⟩
                rw [hRL] at he
                exact absurd he (by simp)
  refine ⟨?_, hmain.1, hmain.2, ?_, ?_, ?_⟩
  · intro E hrd hne hl
    refine ⟨?_, ?_, ?_⟩
    · intro ent hm hd
      exact latestGo_ge_mem E "" ent hm hd
    · rcases latestGo_cases E "" with h | ⟨ent, hm, hd, hf⟩
      · exact absurd h hl
      · exact ⟨ent, hm, hd, hf⟩
    · intro m hman
      have hRL : RestoreLast fs baseDir = (.ok (),
          (restoreLoop fs m.entries).removeAll
            (baseDir ++ [latestSession E])) := by
        rw [RestoreLast_eq, hrd]
        dsimp only
        rw [if_neg (by rw [List.isEmpty_iff]; exact hne), if_neg hl, hman]
      refine ⟨hRL, ?_⟩
      intro q hq
      rw [hRL]
      dsimp only
      unfold Fs.statOk
      rw [removeAll_isFile, removeAll_isDir, if_pos hq, if_pos hq]
      rfl
  · intro r es₁ es₂
    unfold restoreLoop
    rw [List.foldl_append]
  · intro r ent rest e h
    rw [restoreLoop_cons, h]
  · intro r r1 ent rest e h1 h2
    rw [restoreLoop_cons, h1]
    show restoreLoop (match r1.rename ent.trashPath ent.originalPath with
      | Except.error _ => r1
      | Except.ok r2 => r2) rest = restoreLoop r1 rest
    rw [h2]

/-- A trash root with two sessions, the later one holding an
empty-entry-list manifest: the C7 witness fixture. -/
def c7fs : Fs :=
  ⟨[⟨["tr", "s2", manifestName], Content.manifestData ⟨0, []⟩, 0⟩],
   [⟨["tr"], 0⟩, ⟨["tr", "s1"], 0⟩, ⟨["tr", "s2"], 0⟩]⟩

theorem c7_witness :
    (RestoreLast c7fs ["tr"]).1 = Except.ok ()
    ∧ (RestoreLast c7fs ["tr"]).2.statOk ["tr", "s2"] = false := by
  have h := (c7_restore_last_semantics c7fs ["tr"]).1
    [⟨"s1", true⟩, ⟨"s2", true⟩] rfl (by decide) (by decide)
  have h2 := h.2.2 ⟨0, []⟩ (by rfl)
  exact ⟨by rw [h2.1], h2.2 ["tr", "s2"] (by decide)⟩

end Burrow
